import Mathlib

/-!
# Verification of `src/jni/magiskboot/compress.c`

Shallow embedding of the multi-codec streaming transcoding layer of
magiskboot.  Byte buffers are `List Nat` (each entry one byte value),
the output file descriptor is modelled by returning the list of bytes
written, and the external codec libraries (zlib, liblzma, liblz4,
libbz2), whose sources are not part of this translation unit, are
abstract parameters collected in the `Libs` structure.  `LOGE`, which
prints and aborts the process, is modelled by the `Except` error
monad; an out-of-bounds read of the input buffer (undefined behaviour
in the C source) is modelled by the dedicated error `Err.oob`.
Loops carry an explicit `fuel` argument; running out of fuel yields
`Err.fuelOut` and is never treated as a result about the program.
-/

namespace Magiskboot

/-- C constant `#define CHUNK 0x40000` — the 256 KiB window used by the gzip and
bzip2 transcoders. -/
def CHUNK : Nat := 0x40000

/-- C constant `#define LZ4_LEGACY_BLOCKSIZE 0x800000` — the 8 MiB uncompressed
block size of the hand-rolled LZ4 legacy framing. -/
def LZ4_LEGACY_BLOCKSIZE : Nat := 0x800000

/-- Worst-case bound `LZ4_COMPRESSBOUND(isize)` from `lz4.h`:
`(isize) + ((isize)/255) + 16` (worst-case compressed size). -/
def LZ4_COMPRESSBOUND (n : Nat) : Nat := n + n / 255 + 16

/-- Modelled from the spec: `BUFSIZ` is the C stdio buffer-size
constant from the platform's `stdio.h`; it is not defined anywhere in
this repository.  On Android's bionic libc (the build target of this
JNI code) it is 1024; glibc uses 8192.  No supported libc defines it
as 65536. -/
def BUFSIZ : Nat := 1024

/-- C local `blockSize = 1 << 22` — the 4 MiB window of the LZ4 frame
transcoder. -/
def lz4BlockSize : Nat := 4194304

/-- The modulus `2^32` of a C `unsigned int`. -/
def U32 : Nat := 4294967296

/-- The 4-byte LZ4 legacy magic `"\x02\x21\x4c\x18"`. -/
def lz4LegacyMagic : List Nat := [0x02, 0x21, 0x4c, 0x18]

/-- The little-endian 4-byte representation of a 32-bit value, as laid
down in memory by `xwrite(fd, &have, sizeof(have))` on the
little-endian targets this code is built for. -/
def le32 (n : Nat) : List Nat :=
  [n % 256, n / 256 % 256, n / 65536 % 256, n / 16777216 % 256]

/-- Model of `*(unsigned *)(buf + pos)` on a little-endian target: read four
bytes at `pos` as a 32-bit little-endian value.  Callers of this model
establish `pos + 4 ≤ buf.length` first; the source performs no such
check and would read out of bounds. -/
def readLE32 (buf : List Nat) (pos : Nat) : Nat :=
  buf.getD pos 0 + 256 * buf.getD (pos + 1) 0 +
    65536 * buf.getD (pos + 2) 0 + 16777216 * buf.getD (pos + 3) 0

/-- The byte range `[pos, pos + n)` of a buffer (`buf + pos` with
`avail_in = n`). -/
def slice (buf : List Nat) (pos n : Nat) : List Nat :=
  (buf.drop pos).take n

/-- Errors: every `LOGE(...)` call in the source aborts the process;
`oob pos need` models an out-of-bounds read of `need` bytes at offset
`pos` (undefined behaviour in C); `fuelOut` is a model artefact for
loop fuel exhaustion. -/
inductive Err where
  | initFail : Err
  | streamErr : Err
  | codecErr : Err
  | oob : Nat → Nat → Err
  | fuelOut : Err
deriving DecidableEq

/-- Result of one transcoder call: `ret` is the value the C function
returns, `written` the bytes written to the output fd, `finalPos` the
final value of the input cursor `pos`, and `windows` the trace of
`(avail_in, finish-flag)` selections of the outer loop (one entry per
outer iteration; codecs without a per-window finish action record
`false`). -/
structure TR where
  ret : Nat
  written : List Nat
  finalPos : Nat
  windows : List (Nat × Bool)
deriving DecidableEq

/-- Modelled from the spec: the abstract behaviour of the external
codec libraries (zlib, liblzma, liblz4frame, liblz4, libbz2), which
are collaborators outside this translation unit.  A streaming call
takes the current opaque state, the remaining bytes of the current
input window, a finish/flush flag where the API has one, and the
output capacity, and returns the new state, the number of input bytes
consumed, the bytes produced (at most the capacity), and the
library's return code. -/
structure Libs (σ : Type) where
  /-- Init `inflateInit2(&strm, windowBits | ZLIB_GZIP)`; `none` = not `Z_OK`. -/
  inflateInit : Option σ
  /-- Init `deflateInit2(&strm, 9, Z_DEFLATED, windowBits | ZLIB_GZIP, memLevel, Z_DEFAULT_STRATEGY)`. -/
  deflateInit : Option σ
  /-- one `inflate(&strm, flush)` call with output capacity `CHUNK`:
  (state, consumed, produced, return code). -/
  inflate : σ → List Nat → Bool → Nat → σ × Nat × List Nat × Int
  /-- one `deflate(&strm, flush)` call. -/
  deflate : σ → List Nat → Bool → Nat → σ × Nat × List Nat × Int
  /-- Init `lzma_auto_decoder(&strm, UINT64_MAX, 0)`. -/
  lzmaAutoDec : Option σ
  /-- Init `lzma_stream_encoder(&strm, filters, LZMA_CHECK_CRC32)` (xz). -/
  lzmaStreamEnc : Option σ
  /-- Init `lzma_alone_encoder(&strm, &opt)` (legacy `.lzma`). -/
  lzmaAloneEnc : Option σ
  /-- one `lzma_code(&strm, action)` call; return code `0` is
  `LZMA_OK`, `1` is `LZMA_STREAM_END`. -/
  lzmaCode : σ → List Nat → Bool → Nat → σ × Nat × List Nat × Nat
  /-- Init `BZ2_bzDecompressInit(&strm, 0, 0)`. -/
  bzDecInit : Option σ
  /-- Init `BZ2_bzCompressInit(&strm, 9, 0, 0)`. -/
  bzCompInit : Option σ
  /-- one `BZ2_bzDecompress(&strm)` call. -/
  bzDecompress : σ → List Nat → Nat → σ × Nat × List Nat × Int
  /-- one `BZ2_bzCompress(&strm, action)` call. -/
  bzCompress : σ → List Nat → Bool → Nat → σ × Nat × List Nat × Int
  /-- Init `LZ4F_createDecompressionContext`. -/
  lz4fCreateDec : Option σ
  /-- Init `LZ4F_createCompressionContext`. -/
  lz4fCreateComp : Option σ
  /-- Header parse `LZ4F_getFrameInfo(dctx, &info, buf, &read)`: `some (read,
  blockSizeID)` on success, `none` on error. -/
  lz4fGetFrameInfo : List Nat → Option (Nat × Nat)
  /-- one `LZ4F_decompress(dctx, out, &have, buf + pos, &read, NULL)`
  call with capacity `have`: (state, produced, consumed, size hint —
  `0` means frame complete, error flag). -/
  lz4fDecompress : σ → Nat → List Nat → σ × List Nat × Nat × Nat × Bool
  /-- Header call `LZ4F_compressBegin(cctx, out, size, &prefs)` with the fixed
  prefs (autoFlush, level 9, independent 4 MiB blocks, content
  checksum): (state, header bytes, error flag). -/
  lz4fCompressBegin : σ → σ × List Nat × Bool
  /-- Body call `LZ4F_compressUpdate(cctx, out, outCapacity, buf + pos,
  avail_in, NULL)`: consumes the whole window. -/
  lz4fCompressUpdate : σ → List Nat → σ × List Nat × Bool
  /-- Footer call `LZ4F_compressEnd(cctx, out, outCapacity, NULL)`: footer bytes. -/
  lz4fCompressEnd : σ → List Nat × Bool
  /-- Block call `LZ4_compress_HC(src, out, insize, LZ4_COMPRESSBOUND(...), 9)`;
  an empty result models the `have == 0` failure. -/
  lz4CompressHC : List Nat → List Nat
  /-- Block call `LZ4_decompress_safe(src, out, block_size,
  LZ4_LEGACY_BLOCKSIZE)`; `none` models a negative return. -/
  lz4DecompressSafe : List Nat → Nat → Option (List Nat)

variable {σ : Type}

/-! ## lz4_legacy — hand-rolled framing (`compress.c` lines 328–385) -/

/-- Decode loop of `lz4_legacy` (mode 0), entered with `pos = 4`
(magic skipped).  Reads a 4-byte block length, performs the
`block_size > LZ4_COMPRESSBOUND(LZ4_LEGACY_BLOCKSIZE)` check
(`goto done`), decompresses exactly `block_size` bytes, accumulates
the 32-bit `unsigned total`, and repeats `while (pos < size)`.
`windows` records each accepted `block_size`. -/
def lz4LegacyDecLoop (L : Libs σ) (buf : List Nat) (pos total : Nat) :
    Nat → Except Err TR
  | 0 => .error .fuelOut
  | fuel + 1 =>
    if buf.length < pos + 4 then .error (.oob pos 4) else
    let block_size := readLE32 buf pos
    let pos1 := pos + 4
    if LZ4_COMPRESSBOUND LZ4_LEGACY_BLOCKSIZE < block_size then
      -- goto done
      .ok ⟨total, [], pos1, []⟩
    else
    if buf.length < pos1 + block_size then .error (.oob pos1 block_size) else
    match L.lz4DecompressSafe (slice buf pos1 block_size) LZ4_LEGACY_BLOCKSIZE with
    | none => .error .codecErr
    | some out =>
      let pos2 := pos1 + block_size
      let total1 := (total + out.length) % U32
      if pos2 < buf.length then
        match lz4LegacyDecLoop L buf pos2 total1 fuel with
        | .error e => .error e
        | .ok r => .ok ⟨r.ret, out ++ r.written, r.finalPos, (block_size, false) :: r.windows⟩
      else .ok ⟨total1, out, pos2, [(block_size, false)]⟩

/-- Encode loop of `lz4_legacy` (mode 1): take
`insize = size - pos` if `pos + LZ4_LEGACY_BLOCKSIZE >= size` else
`LZ4_LEGACY_BLOCKSIZE`, HC-compress it, fail if the library returned
zero bytes, write the 4-byte little-endian length then the block, and
repeat `while (pos < size)` accumulating the 32-bit `unsigned
total`. -/
def lz4LegacyEncLoop (L : Libs σ) (buf : List Nat) (pos total : Nat) :
    Nat → Except Err TR
  | 0 => .error .fuelOut
  | fuel + 1 =>
    let insize := if buf.length ≤ pos + LZ4_LEGACY_BLOCKSIZE
      then buf.length - pos else LZ4_LEGACY_BLOCKSIZE
    let c := L.lz4CompressHC (slice buf pos insize)
    if c.length = 0 then .error .codecErr else
    let pos1 := pos + insize
    let total1 := ((total + 4) % U32 + c.length) % U32
    let w := le32 c.length ++ c
    if pos1 < buf.length then
      match lz4LegacyEncLoop L buf pos1 total1 fuel with
      | .error e => .error e
      | .ok r => .ok ⟨r.ret, w ++ r.written, r.finalPos, (insize, false) :: r.windows⟩
    else .ok ⟨total1, w, pos1, [(insize, false)]⟩

/-- The function `size_t lz4_legacy(int mode, int fd, const void *buf, size_t size)`.
Mode 0 = decode (skip the 4-byte magic, then the block loop); mode 1 =
encode (write the magic — counted in `total` — run the block loop,
then append the little-endian original size, which is written but
*not* added to `total`).  `total` is a C `unsigned`, hence the `% U32`
accumulation. -/
def lz4_legacy (L : Libs σ) (mode : Nat) (buf : List Nat) (fuel : Nat) :
    Except Err TR :=
  if mode = 0 then
    lz4LegacyDecLoop L buf 4 0 fuel
  else
    match lz4LegacyEncLoop L buf 0 (4 % U32) fuel with
    | .error e => .error e
    | .ok r =>
      .ok ⟨r.ret, lz4LegacyMagic ++ r.written ++ le32 (buf.length % U32),
           r.finalPos, r.windows⟩

/-- The sequence of uncompressed chunks the encode loop submits to
`LZ4_compress_HC`: successive `LZ4_LEGACY_BLOCKSIZE` pieces with a
final (possibly empty) remainder piece — the do/while runs at least
once, so the empty buffer still yields one (empty) chunk. -/
def legacyChunks (b : List Nat) : List (List Nat) :=
  if _h : b.length ≤ LZ4_LEGACY_BLOCKSIZE then [b]
  else
    b.take LZ4_LEGACY_BLOCKSIZE :: legacyChunks (b.drop LZ4_LEGACY_BLOCKSIZE)
termination_by b.length
decreasing_by
  simp only [List.length_drop]
  have : 0 < LZ4_LEGACY_BLOCKSIZE := by decide
  omega

/-- The full byte stream the encoder writes for input `buf`: magic,
then one length-prefixed HC-compressed block per chunk, then the
little-endian low 32 bits of the original length. -/
def legacyEncBytes (L : Libs σ) (buf : List Nat) : List Nat :=
  lz4LegacyMagic ++
    (legacyChunks buf).flatMap
      (fun c => le32 (L.lz4CompressHC c).length ++ L.lz4CompressHC c) ++
    le32 (buf.length % U32)

/-! ## gzip (`compress.c` lines 25–87) -/

/-- Inner drain loop of `gzip`: call `inflate`/`deflate` with output
capacity `CHUNK`, abort on `Z_STREAM_ERROR` (`-2`), write the
produced bytes, repeat `while (strm.avail_out == 0)` (i.e. while the
call filled the whole output buffer).  Returns the final state, the
amount added to `total`, and the bytes written. -/
def gzInner (code : σ → List Nat → Bool → Nat → σ × Nat × List Nat × Int)
    (st : σ) (availIn : List Nat) (flush : Bool) :
    Nat → Except Err (σ × Nat × List Nat)
  | 0 => .error .fuelOut
  | fuel + 1 =>
    match code st availIn flush CHUNK with
    | (st1, consumed, out, ret) =>
      if ret = -2 then .error .streamErr else
      if out.length = CHUNK then
        match gzInner code st1 (availIn.drop consumed) flush fuel with
        | .error e => .error e
        | .ok (st2, dTot, dW) => .ok (st2, out.length + dTot, out ++ dW)
      else .ok (st1, out.length, out)

/-- Outer loop of `gzip`: pick the next window of `CHUNK` bytes (the
remainder, with `flush = Z_FINISH`, once `pos + CHUNK >= size`),
advance `pos` past it, drain the codec, repeat `while (pos < size)`. -/
def gzOuter (code : σ → List Nat → Bool → Nat → σ × Nat × List Nat × Int)
    (buf : List Nat) (st : σ) (pos total : Nat) :
    Nat → Except Err TR
  | 0 => .error .fuelOut
  | fuel + 1 =>
    let fin := buf.length ≤ pos + CHUNK
    let availIn := if buf.length ≤ pos + CHUNK then buf.length - pos else CHUNK
    let pos1 := pos + availIn
    match gzInner code st (slice buf pos availIn) fin fuel with
    | .error e => .error e
    | .ok (st1, dTot, dW) =>
      let total1 := total + dTot
      if pos1 < buf.length then
        match gzOuter code buf st1 pos1 total1 fuel with
        | .error e => .error e
        | .ok r => .ok ⟨r.ret, dW ++ r.written, r.finalPos, (availIn, decide fin) :: r.windows⟩
      else .ok ⟨total1, dW, pos1, [(availIn, decide fin)]⟩

/-- The function `size_t gzip(int mode, int fd, const void *buf, size_t size)`:
mode 0 = inflate, mode 1 = deflate; a failed `*Init2` aborts. -/
def gzip (L : Libs σ) (mode : Nat) (buf : List Nat) (fuel : Nat) :
    Except Err TR :=
  match (if mode = 0 then L.inflateInit else L.deflateInit) with
  | none => .error .initFail
  | some st =>
    gzOuter (if mode = 0 then L.inflate else L.deflate) buf st 0 0 fuel

/-! ## xz / lzma (`compress.c` lines 91–148) -/

/-- Inner drain loop of `lzma`: call `lzma_code` with output capacity
`BUFSIZ`, write the produced bytes, repeat
`while (strm.avail_out == 0 && ret == LZMA_OK)`; also returns the last
return code for the post-loop check. -/
def lzInner (code : σ → List Nat → Bool → Nat → σ × Nat × List Nat × Nat)
    (st : σ) (availIn : List Nat) (action : Bool) :
    Nat → Except Err (σ × Nat × List Nat × Nat)
  | 0 => .error .fuelOut
  | fuel + 1 =>
    match code st availIn action BUFSIZ with
    | (st1, consumed, out, ret) =>
      if out.length = BUFSIZ ∧ ret = 0 then
        match lzInner code st1 (availIn.drop consumed) action fuel with
        | .error e => .error e
        | .ok (st2, dTot, dW, ret2) => .ok (st2, out.length + dTot, out ++ dW, ret2)
      else .ok (st1, out.length, out, ret)

/-- Outer loop of `lzma`: windows of `BUFSIZ` bytes (the remainder,
with `LZMA_FINISH`, once `pos + BUFSIZ >= size`); after the drain,
`ret` must be `LZMA_OK` (0) or `LZMA_STREAM_END` (1), otherwise
`LOGE`; repeat `while (pos < size)`. -/
def lzOuter (code : σ → List Nat → Bool → Nat → σ × Nat × List Nat × Nat)
    (buf : List Nat) (st : σ) (pos total : Nat) :
    Nat → Except Err TR
  | 0 => .error .fuelOut
  | fuel + 1 =>
    let fin := buf.length ≤ pos + BUFSIZ
    let availIn := if buf.length ≤ pos + BUFSIZ then buf.length - pos else BUFSIZ
    let pos1 := pos + availIn
    match lzInner code st (slice buf pos availIn) fin fuel with
    | .error e => .error e
    | .ok (st1, dTot, dW, ret) =>
      if ¬ (ret = 0 ∨ ret = 1) then .error .streamErr else
      let total1 := total + dTot
      if pos1 < buf.length then
        match lzOuter code buf st1 pos1 total1 fuel with
        | .error e => .error e
        | .ok r => .ok ⟨r.ret, dW ++ r.written, r.finalPos, (availIn, decide fin) :: r.windows⟩
      else .ok ⟨total1, dW, pos1, [(availIn, decide fin)]⟩

/-- The function `size_t lzma(int mode, int fd, const void *buf, size_t size)`:
mode 0 = `lzma_auto_decoder` (shared xz/lzma decode path), mode 1 =
`lzma_stream_encoder` (xz), mode 2 = `lzma_alone_encoder` (legacy
`.lzma`); the streaming loop is common to all three modes. -/
def lzma (L : Libs σ) (mode : Nat) (buf : List Nat) (fuel : Nat) :
    Except Err TR :=
  match (match mode with
         | 0 => L.lzmaAutoDec
         | 1 => L.lzmaStreamEnc
         | _ => L.lzmaAloneEnc) with
  | none => .error .initFail
  | some st => lzOuter L.lzmaCode buf st 0 0 fuel

/-! ## bzip2 (`compress.c` lines 265–325) -/

/-- Inner drain loop of `bzip2`: call `BZ2_bzDecompress` /
`BZ2_bzCompress` with output capacity `CHUNK`, write the produced
bytes, repeat `while (strm.avail_out == 0)`.  The source inspects no
return code here: the loop cannot fail. -/
def bzInner (step : σ → List Nat → σ × Nat × List Nat × Int)
    (st : σ) (availIn : List Nat) :
    Nat → Except Err (σ × Nat × List Nat)
  | 0 => .error .fuelOut
  | fuel + 1 =>
    match step st availIn with
    | (st1, consumed, out, _ret) =>
      if out.length = CHUNK then
        match bzInner step st1 (availIn.drop consumed) fuel with
        | .error e => .error e
        | .ok (st2, dTot, dW) => .ok (st2, out.length + dTot, out ++ dW)
      else .ok (st1, out.length, out)

/-- Outer loop of `bzip2`: windows of `CHUNK` bytes (the remainder,
with `BZ_FINISH`, once `pos + CHUNK >= size`); repeat
`while (pos < size)`. -/
def bzOuter (step : Bool → σ → List Nat → σ × Nat × List Nat × Int)
    (buf : List Nat) (st : σ) (pos total : Nat) :
    Nat → Except Err TR
  | 0 => .error .fuelOut
  | fuel + 1 =>
    let fin := buf.length ≤ pos + CHUNK
    let availIn := if buf.length ≤ pos + CHUNK then buf.length - pos else CHUNK
    let pos1 := pos + availIn
    match bzInner (step fin) st (slice buf pos availIn) fuel with
    | .error e => .error e
    | .ok (st1, dTot, dW) =>
      let total1 := total + dTot
      if pos1 < buf.length then
        match bzOuter step buf st1 pos1 total1 fuel with
        | .error e => .error e
        | .ok r => .ok ⟨r.ret, dW ++ r.written, r.finalPos, (availIn, decide fin) :: r.windows⟩
      else .ok ⟨total1, dW, pos1, [(availIn, decide fin)]⟩

/-- The function `size_t bzip2(int mode, int fd, const void *buf, size_t size)`:
mode 0 = decompress (the action argument is unused), mode 1 =
compress with per-window `BZ_RUN`/`BZ_FINISH`. -/
def bzip2 (L : Libs σ) (mode : Nat) (buf : List Nat) (fuel : Nat) :
    Except Err TR :=
  match (if mode = 0 then L.bzDecInit else L.bzCompInit) with
  | none => .error .initFail
  | some st =>
    bzOuter
      (if mode = 0
       then fun _ s inp => L.bzDecompress s inp CHUNK
       else fun a s inp => L.bzCompress s inp a CHUNK)
      buf st 0 0 fuel

/-! ## LZ4 frame (`compress.c` lines 151–262) -/

/-- Inner loop of `lz4` decode: `LZ4F_decompress` with capacity
`outCap`, write the produced bytes, advance `pos` by the consumed
count, repeat `while (avail_in != 0 && ret != 0)`.  Returns the final
state, cursor, `total` increment, written bytes, and the last size
hint. -/
def lz4DecInner (L : Libs σ) (outCap : Nat) (buf : List Nat)
    (st : σ) (pos availIn : Nat) :
    Nat → Except Err (σ × Nat × Nat × List Nat × Nat)
  | 0 => .error .fuelOut
  | fuel + 1 =>
    -- rc = (state, out, read, hint, isErr)
    let rc := L.lz4fDecompress st outCap (slice buf pos availIn)
    if rc.2.2.2.2 then .error .streamErr else
    let pos1 := pos + rc.2.2.1
    let avail1 := availIn - rc.2.2.1
    if avail1 ≠ 0 ∧ rc.2.2.2.1 ≠ 0 then
      match lz4DecInner L outCap buf rc.1 pos1 avail1 fuel with
      | .error e => .error e
      | .ok (st2, pos2, dTot, dW, hint2) =>
        .ok (st2, pos2, rc.2.1.length + dTot, rc.2.1 ++ dW, hint2)
    else .ok (rc.1, pos1, rc.2.1.length, rc.2.1, rc.2.2.2.1)

/-- Outer loop of `lz4` decode: windows of `blockSize = 1 << 22`
bytes, repeat `while (pos < size && ret != 0)`. -/
def lz4DecOuter (L : Libs σ) (outCap : Nat) (buf : List Nat)
    (st : σ) (pos total : Nat) :
    Nat → Except Err TR
  | 0 => .error .fuelOut
  | fuel + 1 =>
    let availIn := if buf.length ≤ pos + lz4BlockSize
      then buf.length - pos else lz4BlockSize
    match lz4DecInner L outCap buf st pos availIn fuel with
    | .error e => .error e
    | .ok (st1, pos1, dTot, dW, hint) =>
      let total1 := total + dTot
      if pos1 < buf.length ∧ hint ≠ 0 then
        match lz4DecOuter L outCap buf st1 pos1 total1 fuel with
        | .error e => .error e
        | .ok r => .ok ⟨r.ret, dW ++ r.written, r.finalPos, (availIn, false) :: r.windows⟩
      else .ok ⟨total1, dW, pos1, [(availIn, false)]⟩

/-- Outer loop of `lz4` encode: windows of `blockSize = 1 << 22`
bytes; `LZ4F_compressUpdate` consumes the whole window (`read =
avail_in`), so the inner do/while exits after one iteration; repeat
`while (pos < size && ret != 0)` where `ret` is the number of bytes
the update produced. -/
def lz4EncOuter (L : Libs σ) (buf : List Nat) (st : σ) (pos total : Nat) :
    Nat → Except Err (σ × TR)
  | 0 => .error .fuelOut
  | fuel + 1 =>
    let availIn := if buf.length ≤ pos + lz4BlockSize
      then buf.length - pos else lz4BlockSize
    -- rc = (state, out, isErr)
    let rc := L.lz4fCompressUpdate st (slice buf pos availIn)
    if rc.2.2 then .error .streamErr else
    let pos1 := pos + availIn
    let total1 := total + rc.2.1.length
    if pos1 < buf.length ∧ rc.2.1.length ≠ 0 then
      match lz4EncOuter L buf rc.1 pos1 total1 fuel with
      | .error e => .error e
      | .ok (st2, r) =>
        .ok (st2, ⟨r.ret, rc.2.1 ++ r.written, r.finalPos, (availIn, false) :: r.windows⟩)
    else .ok (rc.1, ⟨total1, rc.2.1, pos1, [(availIn, false)]⟩)

/-- Map the parsed `info.blockSizeID` to the output buffer capacity
(`LZ4F_default`/`LZ4F_max64KB` → 64 KiB, `max256KB` → 256 KiB,
`max1MB` → 1 MiB, `max4MB` → 4 MiB, anything else aborts). -/
def lz4BlockSizeIdCap (id : Nat) : Option Nat :=
  match id with
  | 0 => some 65536
  | 4 => some 65536
  | 5 => some 262144
  | 6 => some 1048576
  | 7 => some 4194304
  | _ => none

/-- The function `size_t lz4(int mode, int fd, const void *buf, size_t size)`:
mode 0 = frame decode (parse the frame header first, size the output
buffer from the negotiated block size, start the loop at the header
length); mode 1 = frame encode (write the `LZ4F_compressBegin` header
— counted —, stream the body windows, then write the
`LZ4F_compressEnd` footer — also counted). -/
def lz4 (L : Libs σ) (mode : Nat) (buf : List Nat) (fuel : Nat) :
    Except Err TR :=
  if mode = 0 then
    match L.lz4fCreateDec with
    | none => .error .initFail
    | some st =>
      match L.lz4fGetFrameInfo buf with
      | none => .error .streamErr
      | some (read, bsid) =>
        match lz4BlockSizeIdCap bsid with
        | none => .error .streamErr
        | some outCap => lz4DecOuter L outCap buf st read 0 fuel
  else
    match L.lz4fCreateComp with
    | none => .error .initFail
    | some st =>
      -- rb = (state, header bytes, isErr)
      let rb := L.lz4fCompressBegin st
      if rb.2.2 then .error .streamErr else
      match lz4EncOuter L buf rb.1 0 rb.2.1.length fuel with
      | .error e => .error e
      | .ok (st2, r) =>
        -- re = (footer bytes, isErr)
        let re := L.lz4fCompressEnd st2
        if re.2 then .error .streamErr else
        .ok ⟨r.ret + re.1.length, rb.2.1 ++ r.written ++ re.1, r.finalPos, r.windows⟩

/-! ## Dispatchers (`compress.c` lines 387–426) -/

/-- Modelled from the spec: the `file_t` container-type tag, declared
in `magiskboot.h` (not part of this translation unit): one of gzip,
xz, legacy-LZMA, bzip2, LZ4-frame, LZ4-legacy, or unknown. -/
inductive file_t where
  | GZIP | XZ | LZMA | BZIP2 | LZ4 | LZ4_LEGACY | UNKNOWN
deriving DecidableEq

/-- Adapt a transcoder result to the `long long` return of
`decomp`/`comp` (paired with the bytes written). -/
def toLL : Except Err TR → Except Err (Int × List Nat)
  | .error e => .error e
  | .ok r => .ok ((r.ret : Int), r.written)

/-- The function `long long decomp(file_t type, int to, const void *from, size_t size)`:
route the tag to the decode mode of the matching transcoder, or
return the `-1` sentinel for an unsupported tag. -/
def decomp (L : Libs σ) (t : file_t) (buf : List Nat) (fuel : Nat) :
    Except Err (Int × List Nat) :=
  match t with
  | .GZIP => toLL (gzip L 0 buf fuel)
  | .XZ => toLL (lzma L 0 buf fuel)
  | .LZMA => toLL (lzma L 0 buf fuel)
  | .BZIP2 => toLL (bzip2 L 0 buf fuel)
  | .LZ4 => toLL (lz4 L 0 buf fuel)
  | .LZ4_LEGACY => toLL (lz4_legacy L 0 buf fuel)
  | .UNKNOWN => .ok (-1, [])

/-- The function `long long comp(file_t type, int to, const void *from, size_t size)`:
route the tag to the encode mode of the matching transcoder (`XZ` →
`lzma` mode 1, `LZMA` → `lzma` mode 2), or return the `-1` sentinel. -/
def comp (L : Libs σ) (t : file_t) (buf : List Nat) (fuel : Nat) :
    Except Err (Int × List Nat) :=
  match t with
  | .GZIP => toLL (gzip L 1 buf fuel)
  | .XZ => toLL (lzma L 1 buf fuel)
  | .LZMA => toLL (lzma L 2 buf fuel)
  | .BZIP2 => toLL (bzip2 L 1 buf fuel)
  | .LZ4 => toLL (lz4 L 1 buf fuel)
  | .LZ4_LEGACY => toLL (lz4_legacy L 1 buf fuel)
  | .UNKNOWN => .ok (-1, [])

/-! ## File-level helpers (`compress.c` lines 432–531) -/

/-- Errors of the command-line helpers: `badExt` is the
`LOGE("Bad filename extention ...")` path (missing dot or mismatched
suffix), `unsupportedArchive` the `LOGE("Provided file ... is not a
supported archive format")` path. -/
inductive FileErr where
  | badExt | unsupportedArchive
deriving DecidableEq

/-- Model of `strrchr(from, '.')`: the suffix of the path starting at its last
dot (dot included), or `none` when the path has no dot. -/
def lastDotSuffix (path : List Char) : Option (List Char) :=
  match path with
  | [] => none
  | c :: rest =>
    match lastDotSuffix rest with
    | some s => some s
    | none => if c = '.' then some (c :: rest) else none

/-- The extension-validation fragment of `decomp_file`: fail when the
path has no dot; then the detected container type and the suffix must
match (`.gz`, `.xz`, `.lzma`, `.bz2`, and `.lz4` for both LZ4
variants); an unrecognized type aborts. -/
def decomp_file_check (t : file_t) (path : List Char) : Except FileErr Unit :=
  match lastDotSuffix path with
  | none => .error .badExt
  | some ext =>
    match t with
    | .GZIP => if ext = ".gz".toList then .ok () else .error .badExt
    | .XZ => if ext = ".xz".toList then .ok () else .error .badExt
    | .LZMA => if ext = ".lzma".toList then .ok () else .error .badExt
    | .BZIP2 => if ext = ".bz2".toList then .ok () else .error .badExt
    | .LZ4_LEGACY => if ext = ".lz4".toList then .ok () else .error .badExt
    | .LZ4 => if ext = ".lz4".toList then .ok () else .error .badExt
    | .UNKNOWN => .error .unsupportedArchive

/-- The method-name matcher of `comp_file`: map a method name to its
format tag and destination suffix, `none` for an unrecognized name
(the source prints the supported list and exits non-zero). -/
def comp_file_method (m : String) : Option (file_t × String) :=
  if m = "gzip" then some (.GZIP, "gz")
  else if m = "xz" then some (.XZ, "xz")
  else if m = "lzma" then some (.LZMA, "lzma")
  else if m = "lz4" then some (.LZ4, "lz4")
  else if m = "lz4_legacy" then some (.LZ4_LEGACY, "lz4")
  else if m = "bzip2" then some (.BZIP2, "bz2")
  else none

/-! ## Window schedule

The outer loops of `gzip`, `lzma` and `bzip2` share one window
pattern; `windowCount`/`windowList` give its closed form, used to
state what the loops' `windows` traces are. -/

/-- The `(avail_in, finish)` window trace for `size` input bytes and a
given chunk size: full `chunk`-sized windows without the finish flag,
then one final window of the remaining bytes (possibly the whole
input, possibly empty — the do/while runs once even on an empty
buffer) with the finish flag set. -/
def windowList (chunk size : Nat) : List (Nat × Bool) :=
  if chunk = 0 ∨ size ≤ chunk then [(size, true)]
  else (chunk, false) :: windowList chunk (size - chunk)
termination_by size
decreasing_by
  rename_i h
  push_neg at h
  omega

/-- The input cursor positions visited by a window trace, starting
from `pos` (including the initial and the final position). -/
def cursors (pos : Nat) : List (Nat × Bool) → List Nat
  | [] => [pos]
  | (a, _) :: ws => pos :: cursors (pos + a) ws

/-! ## Concrete codec instances

Executable instantiations of the abstract `Libs` interface, used to
evaluate the transcoders on concrete inputs.  `toyLibs` threads no
state and copies bytes through; its LZ4 block codec prepends a tag
byte, so that compression is injective, never empty, within
`LZ4_COMPRESSBOUND`, and exactly invertible by its decompressor. -/

/-- A stateless pass-through codec family. -/
def toyLibs : Libs Unit where
  inflateInit := some ()
  deflateInit := some ()
  inflate := fun _ inp _ _ => ((), inp.length, inp, 0)
  deflate := fun _ inp _ _ => ((), inp.length, inp, 0)
  lzmaAutoDec := some ()
  lzmaStreamEnc := some ()
  lzmaAloneEnc := some ()
  lzmaCode := fun _ inp _ _ => ((), inp.length, inp, 1)
  bzDecInit := some ()
  bzCompInit := some ()
  bzDecompress := fun _ inp _ => ((), inp.length, inp, 0)
  bzCompress := fun _ inp _ _ => ((), inp.length, inp, 0)
  lz4fCreateDec := some ()
  lz4fCreateComp := some ()
  lz4fGetFrameInfo := fun _ => some (1, 7)
  lz4fDecompress := fun _ _ src => ((), src, src.length, 0, false)
  lz4fCompressBegin := fun st => (st, [9], false)
  lz4fCompressUpdate := fun st inp => (st, 7 :: inp, false)
  lz4fCompressEnd := fun _ => ([8], false)
  lz4CompressHC := fun b => 1 :: b
  lz4DecompressSafe := fun s cap =>
    match s with
    | 1 :: rest => if rest.length ≤ cap then some rest else none
    | _ => none

/-- A codec family whose lzma output depends on the initialization
state, separating the xz stream encoder (state 1) from the LZMA-alone
encoder (state 2). -/
def toyLibs2 : Libs Nat where
  inflateInit := some 0
  deflateInit := some 0
  inflate := fun st inp _ _ => (st, inp.length, inp, 0)
  deflate := fun st inp _ _ => (st, inp.length, inp, 0)
  lzmaAutoDec := some 0
  lzmaStreamEnc := some 1
  lzmaAloneEnc := some 2
  lzmaCode := fun st inp _ _ => (st, inp.length, st :: inp, 1)
  bzDecInit := some 0
  bzCompInit := some 0
  bzDecompress := fun st inp _ => (st, inp.length, inp, 0)
  bzCompress := fun st inp _ _ => (st, inp.length, inp, 0)
  lz4fCreateDec := some 0
  lz4fCreateComp := some 0
  lz4fGetFrameInfo := fun _ => some (1, 7)
  lz4fDecompress := fun st _ src => (st, src, src.length, 0, false)
  lz4fCompressBegin := fun st => (st, [9], false)
  lz4fCompressUpdate := fun st inp => (st, 7 :: inp, false)
  lz4fCompressEnd := fun _ => ([8], false)
  lz4CompressHC := fun b => 1 :: b
  lz4DecompressSafe := fun s cap =>
    match s with
    | 1 :: rest => if rest.length ≤ cap then some rest else none
    | _ => none

deriving instance DecidableEq for Except

/-- The window trace of a transcoder result (empty for errors): used
to state window-schedule facts about concrete runs without spelling
out the full written byte list. -/
def windowsOf : Except Err TR → List (Nat × Bool)
  | .error _ => []
  | .ok r => r.windows

/-! ## Lemmas: LZ4-legacy encoder structure -/

theorem legacyChunks_length (b : List Nat) :
    (legacyChunks b).length =
      max 1 ((b.length + LZ4_LEGACY_BLOCKSIZE - 1) / LZ4_LEGACY_BLOCKSIZE) := by
  induction b using legacyChunks.induct with
  | case1 b h =>
    rw [legacyChunks, dif_pos h]
    simp only [List.length_singleton]
    simp only [LZ4_LEGACY_BLOCKSIZE] at h ⊢
    omega
  | case2 b h ih =>
    rw [legacyChunks, dif_neg h]
    simp only [List.length_cons, ih, List.length_drop]
    simp only [LZ4_LEGACY_BLOCKSIZE] at h ⊢
    omega

theorem legacyChunks_flatten (b : List Nat) : (legacyChunks b).flatten = b := by
  induction b using legacyChunks.induct with
  | case1 b h => rw [legacyChunks, dif_pos h]; simp
  | case2 b h ih =>
    rw [legacyChunks, dif_neg h]
    simp only [List.flatten_cons, ih]
    exact List.take_append_drop _ _

theorem legacyChunks_le (b : List Nat) :
    ∀ c ∈ legacyChunks b, c.length ≤ LZ4_LEGACY_BLOCKSIZE := by
  induction b using legacyChunks.induct with
  | case1 b h =>
    intro c hc
    rw [legacyChunks, dif_pos h] at hc
    simp only [List.mem_singleton] at hc
    exact hc ▸ h
  | case2 b h ih =>
    intro c hc
    rw [legacyChunks, dif_neg h] at hc
    rcases List.mem_cons.mp hc with hc | hc
    · subst hc
      simp only [List.length_take]
      omega
    · exact ih c hc

set_option maxHeartbeats 1000000 in
theorem lz4LegacyEncLoop_spec (L : Libs σ) (hne : ∀ c, L.lz4CompressHC c ≠ [])
    (buf : List Nat) :
    ∀ fuel pos total, pos ≤ buf.length → buf.length - pos < fuel →
      lz4LegacyEncLoop L buf pos total fuel =
        .ok ⟨(total + ((legacyChunks (buf.drop pos)).map
                (fun c => 4 + (L.lz4CompressHC c).length)).sum) % U32,
             (legacyChunks (buf.drop pos)).flatMap
                (fun c => le32 (L.lz4CompressHC c).length ++ L.lz4CompressHC c),
             buf.length,
             (legacyChunks (buf.drop pos)).map (fun c => (c.length, false))⟩ := by
  intro fuel
  induction fuel with
  | zero => intro pos total _ hf; exact absurd hf (Nat.not_lt_zero _)
  | succ fuel ih =>
    intro pos total hpos hf
    have hBS1 : 1 ≤ LZ4_LEGACY_BLOCKSIZE := by decide
    by_cases hfin : buf.length ≤ pos + LZ4_LEGACY_BLOCKSIZE
    · have hrem : (buf.drop pos).length ≤ LZ4_LEGACY_BLOCKSIZE := by
        simp only [List.length_drop]; omega
      have hsl : slice buf pos (buf.length - pos) = buf.drop pos := by
        simp only [slice]
        exact List.take_of_length_le (by simp)
      have hc0 : ¬ ((L.lz4CompressHC (buf.drop pos)).length = 0) := by
        simpa using hne (buf.drop pos)
      simp only [lz4LegacyEncLoop, if_pos hfin, hsl, if_neg hc0]
      rw [if_neg (by omega : ¬ (pos + (buf.length - pos) < buf.length))]
      rw [legacyChunks, dif_pos hrem]
      simp only [List.map_cons, List.map_nil, List.sum_cons, List.sum_nil,
        List.flatMap_cons, List.flatMap_nil, List.append_nil,
        List.length_drop, Except.ok.injEq, TR.mk.injEq]
      refine ⟨?_, trivial, by omega, trivial⟩
      simp only [U32]
      omega
    · have hrem : ¬ ((buf.drop pos).length ≤ LZ4_LEGACY_BLOCKSIZE) := by
        simp only [List.length_drop]; omega
      have hc0 : ¬ ((L.lz4CompressHC (slice buf pos LZ4_LEGACY_BLOCKSIZE)).length = 0) := by
        simpa using hne (slice buf pos LZ4_LEGACY_BLOCKSIZE)
      have hlt : pos + LZ4_LEGACY_BLOCKSIZE < buf.length := by omega
      have hchunks : legacyChunks (buf.drop pos) =
          (buf.drop pos).take LZ4_LEGACY_BLOCKSIZE ::
            legacyChunks ((buf.drop pos).drop LZ4_LEGACY_BLOCKSIZE) := by
        rw [legacyChunks]
        exact dif_neg hrem
      have hdd : (buf.drop pos).drop LZ4_LEGACY_BLOCKSIZE =
          buf.drop (pos + LZ4_LEGACY_BLOCKSIZE) := by
        rw [List.drop_drop, Nat.add_comm]
      have htk : (buf.drop pos).take LZ4_LEGACY_BLOCKSIZE =
          slice buf pos LZ4_LEGACY_BLOCKSIZE := rfl
      simp only [lz4LegacyEncLoop, if_neg hfin, if_neg hc0, if_pos hlt]
      rw [ih (pos + LZ4_LEGACY_BLOCKSIZE) (((total + 4) % U32 +
            (L.lz4CompressHC (slice buf pos LZ4_LEGACY_BLOCKSIZE)).length) % U32)
          (by omega) (by omega)]
      rw [hchunks]
      simp only [hdd, htk, List.map_cons, List.sum_cons, List.flatMap_cons,
        List.length_take, List.length_drop, Except.ok.injEq, TR.mk.injEq]
      refine ⟨?_, trivial, trivial, ?_⟩
      · simp only [U32]
        omega
      · have hsll : (slice buf pos LZ4_LEGACY_BLOCKSIZE).length = LZ4_LEGACY_BLOCKSIZE := by
          simp only [slice, List.length_take, List.length_drop]
          omega
        rw [hsll]


theorem lz4LegacyEncLoop_ret (L : Libs σ) (buf : List Nat) :
    ∀ fuel pos total r, lz4LegacyEncLoop L buf pos total fuel = .ok r →
      r.ret = (total + r.written.length) % U32 ∧ 4 ≤ r.written.length := by
  intro fuel
  induction fuel with
  | zero => intro pos total r h; exact absurd h (by simp [lz4LegacyEncLoop])
  | succ fuel ih =>
    intro pos total r h
    simp only [lz4LegacyEncLoop] at h
    split at h <;>
    · split at h
      · exact absurd h (by simp)
      · split at h
        · split at h
          · exact absurd h (by simp)
          · rename_i r1 heq
            obtain ⟨h1, h2⟩ := ih _ _ _ heq
            cases h
            simp only [List.length_append, List.length_cons, le32, List.length_nil] at h1 ⊢
            refine ⟨?_, by omega⟩
            rw [h1]
            simp only [U32]
            omega
        · cases h
          simp only [le32, List.length_append, List.length_cons, List.length_nil, U32]
          exact ⟨by omega, by omega⟩

theorem lz4LegacyDecLoop_ret (L : Libs σ) (buf : List Nat) :
    ∀ fuel pos total r, total < U32 → lz4LegacyDecLoop L buf pos total fuel = .ok r →
      r.ret = (total + r.written.length) % U32 := by
  intro fuel
  induction fuel with
  | zero => intro pos total r _ h; exact absurd h (by simp [lz4LegacyDecLoop])
  | succ fuel ih =>
    intro pos total r htot h
    simp only [lz4LegacyDecLoop] at h
    split at h
    · exact absurd h (by simp)
    · split at h
      · cases h
        simp only [List.length_nil, U32] at htot ⊢
        omega
      · split at h
        · exact absurd h (by simp)
        · split at h
          · exact absurd h (by simp)
          · rename_i out heq
            split at h
            · split at h
              · exact absurd h (by simp)
              · rename_i r1 heq1
                have h1 := ih _ _ _ (Nat.mod_lt _ (by simp [U32])) heq1
                cases h
                simp only [List.length_append] at h1 ⊢
                rw [h1]
                simp only [U32]
                omega
            · cases h
              rfl


theorem lz4_legacy_enc_eq (L : Libs σ) (hne : ∀ c, L.lz4CompressHC c ≠ [])
    (buf : List Nat) :
    lz4_legacy L 1 buf (buf.length + 1) =
      .ok ⟨(4 + ((legacyChunks buf).map
              (fun c => 4 + (L.lz4CompressHC c).length)).sum) % U32,
           legacyEncBytes L buf, buf.length,
           (legacyChunks buf).map (fun c => (c.length, false))⟩ := by
  have h := lz4LegacyEncLoop_spec L hne buf (buf.length + 1) 0 (4 % U32)
    (Nat.zero_le _) (by omega)
  simp only [List.drop_zero] at h
  simp only [lz4_legacy, if_neg (by omega : ¬ (1 = 0)), h]
  simp only [legacyEncBytes, Except.ok.injEq, TR.mk.injEq]
  refine ⟨?_, trivial, trivial, trivial⟩
  simp only [U32]

theorem legacyChunks_replicate : ∀ (k : Nat), 1 ≤ k → ∀ (x : Nat),
    legacyChunks (List.replicate (k * LZ4_LEGACY_BLOCKSIZE) x) =
      List.replicate k (List.replicate LZ4_LEGACY_BLOCKSIZE x) := by
  intro k
  induction k with
  | zero => intro h; exact absurd h (by decide)
  | succ k ih =>
    intro _ x
    by_cases hk : k = 0
    · subst hk
      rw [legacyChunks, dif_pos (by simp)]
      simp
    · have hgt : ¬ ((List.replicate ((k + 1) * LZ4_LEGACY_BLOCKSIZE) x).length ≤
          LZ4_LEGACY_BLOCKSIZE) := by
        simp only [List.length_replicate, LZ4_LEGACY_BLOCKSIZE]
        omega
      rw [legacyChunks, dif_neg hgt]
      rw [List.take_replicate, List.drop_replicate, List.replicate_succ]
      congr 1
      · congr 1
        simp only [LZ4_LEGACY_BLOCKSIZE]
        omega
      · have hsub : (k + 1) * LZ4_LEGACY_BLOCKSIZE - LZ4_LEGACY_BLOCKSIZE =
            k * LZ4_LEGACY_BLOCKSIZE := by
          simp only [LZ4_LEGACY_BLOCKSIZE]
          omega
        rw [hsub, ih (by omega) x]


theorem le32_length (n : Nat) : (le32 n).length = 4 := rfl

/-- C1 (code bug): the round-trip identity `decode(F, encode(F, B)) = B`
fails on the code for the LZ4-legacy format: with a conforming block
codec instance, decoding the encoder's own 14-byte output for `B = [7]`
hits an out-of-bounds read (`Err.oob 14 1`) because the decode loop
interprets the trailing total-size field as a block length.  Evaluated
through the `comp`/`decomp` dispatchers. -/
theorem claim_C1 :
    comp toyLibs .LZ4_LEGACY [7] 2 =
      .ok (10, [2, 33, 76, 24, 2, 0, 0, 0, 1, 7, 1, 0, 0, 0])
  ∧ decomp toyLibs .LZ4_LEGACY [2, 33, 76, 24, 2, 0, 0, 0, 1, 7, 1, 0, 0, 0] 3 =
      .error (.oob 14 1) :=
  ⟨rfl, rfl⟩

/-- C3 (code bug): the LZ4-legacy decode loop is bounded only by
`pos < size` and therefore does read the trailing 4-byte total-size
field as a block length: on the encoder's own output for `B = [5]`
(14 bytes), it accepts the trailer value `1` (below the
`LZ4_COMPRESSBOUND(LZ4_LEGACY_BLOCKSIZE)` limit) and then attempts to
read 1 byte at offset 14 — one byte past the end of the input. -/
theorem claim_C3 :
    lz4_legacy toyLibs 1 [5] 2 =
      .ok ⟨10, [2, 33, 76, 24, 2, 0, 0, 0, 1, 5, 1, 0, 0, 0], 1, [(1, false)]⟩
  ∧ lz4_legacy toyLibs 0 [2, 33, 76, 24, 2, 0, 0, 0, 1, 5, 1, 0, 0, 0] 3 =
      .error (.oob 14 1)
  ∧ ([2, 33, 76, 24, 2, 0, 0, 0, 1, 5, 1, 0, 0, 0] : List Nat).length < 14 + 1 :=
  ⟨rfl, rfl, by decide⟩

/-- C2 (amended): for every buffer, LZ4-legacy encode emits the fixed
4-byte magic, then exactly `max 1 ⌈len/8MiB⌉` length-prefixed
HC-compressed blocks — the loop runs once even on the empty buffer —
whose uncompressed chunks are at most 8 MiB each and concatenate back
to the input, and finally a 4-byte little-endian field holding
`len mod 2^32`. -/
theorem claim_C2 (L : Libs σ) (hne : ∀ c, L.lz4CompressHC c ≠ []) (buf : List Nat) :
    lz4_legacy L 1 buf (buf.length + 1) =
      .ok ⟨(4 + ((legacyChunks buf).map
              (fun c => 4 + (L.lz4CompressHC c).length)).sum) % U32,
           legacyEncBytes L buf, buf.length,
           (legacyChunks buf).map (fun c => (c.length, false))⟩
    ∧ (legacyChunks buf).length =
        max 1 ((buf.length + LZ4_LEGACY_BLOCKSIZE - 1) / LZ4_LEGACY_BLOCKSIZE)
    ∧ (legacyChunks buf).flatten = buf
    ∧ (∀ c ∈ legacyChunks buf, c.length ≤ LZ4_LEGACY_BLOCKSIZE) :=
  ⟨lz4_legacy_enc_eq L hne buf, legacyChunks_length buf,
   legacyChunks_flatten buf, legacyChunks_le buf⟩

/-- C2 witness: the amended encoder-shape theorem instantiated at the
concrete buffer `[5]` with the concrete block codec `toyLibs`. -/
theorem claim_C2_witness :
    lz4_legacy toyLibs 1 [5] 2 =
      .ok ⟨(4 + ((legacyChunks [5]).map
              (fun c => 4 + (toyLibs.lz4CompressHC c).length)).sum) % U32,
           legacyEncBytes toyLibs [5], 1,
           (legacyChunks [5]).map (fun c => (c.length, false))⟩ :=
  (claim_C2 toyLibs (fun c => List.cons_ne_nil 1 c) [5]).1

/-- C2 counterexample: encoding the empty buffer emits one block (one
loop iteration, visible both in the written bytes and in the window
trace), while the claim's `⌈0/8MiB⌉` is `0`. -/
theorem claim_C2_counterexample :
    lz4_legacy toyLibs 1 ([] : List Nat) 1 =
      .ok ⟨9, [2, 33, 76, 24, 1, 0, 0, 0, 1, 0, 0, 0, 0], 0, [(0, false)]⟩
  ∧ (legacyChunks ([] : List Nat)).length = 1
  ∧ (([] : List Nat).length + LZ4_LEGACY_BLOCKSIZE - 1) / LZ4_LEGACY_BLOCKSIZE = 0 := by
  refine ⟨rfl, ?_, by decide⟩
  rw [legacyChunks, dif_pos (by decide)]
  rfl

/-- C6 counterexample: the LZ4-legacy decoder terminates normally with
its cursor at 8 on a 9-byte input (oversized block length rejected via
`goto done`), so the outer loop does not terminate exactly when the
cursor reaches the input length. -/
theorem claim_C6_counterexample :
    lz4_legacy toyLibs 0 [2, 33, 76, 24, 255, 255, 255, 127, 9] 2 =
      .ok ⟨0, [], 8, []⟩
  ∧ (8 : Nat) ≠ ([2, 33, 76, 24, 255, 255, 255, 127, 9] : List Nat).length :=
  ⟨rfl, by decide⟩

/-- C4 counterexample: an LZ4-legacy encode invocation writes 14 bytes
(including the 4-byte trailer) but returns 10, so the return value is
not the total number of bytes written. -/
theorem claim_C4_counterexample :
    lz4_legacy toyLibs 1 [3] 2 =
      .ok ⟨10, [2, 33, 76, 24, 2, 0, 0, 0, 1, 3, 1, 0, 0, 0], 1, [(1, false)]⟩
  ∧ (10 : Nat) ≠ ([2, 33, 76, 24, 2, 0, 0, 0, 1, 3, 1, 0, 0, 0] : List Nat).length :=
  ⟨rfl, by decide⟩

theorem lz4_legacy_enc_ret (L : Libs σ) (buf : List Nat) (fuel : Nat) :
    ∀ r, lz4_legacy L 1 buf fuel = .ok r →
      8 ≤ r.written.length ∧ r.ret = (r.written.length - 4) % U32 := by
  intro r h
  simp only [lz4_legacy, if_neg (by omega : ¬ (1 = 0))] at h
  cases heq : lz4LegacyEncLoop L buf 0 (4 % U32) fuel with
  | error e => rw [heq] at h; exact absurd h (by simp)
  | ok r1 =>
    rw [heq] at h
    obtain ⟨h1, h2⟩ := lz4LegacyEncLoop_ret L buf fuel 0 (4 % U32) r1 heq
    cases h
    simp only [List.length_append, lz4LegacyMagic, le32,
      List.length_cons, List.length_nil]
    refine ⟨by omega, ?_⟩
    rw [h1]
    simp only [U32]
    omega

theorem lz4_legacy_dec_ret (L : Libs σ) (buf : List Nat) (fuel : Nat) :
    ∀ r, lz4_legacy L 0 buf fuel = .ok r → r.ret = r.written.length % U32 := by
  intro r h
  simp only [lz4_legacy, if_pos rfl] at h
  simpa using lz4LegacyDecLoop_ret L buf fuel 4 0 r (by simp [U32]) h

/-- C10 (amended): the LZ4-legacy transcoder accumulates its
bytes-written counter in a 32-bit `unsigned`, and the value it
returns equals, modulo `2^32`, the number of *counted* output bytes:
all of them in decode mode, but in encode mode the 4-byte trailing
size field is written without being counted, so the return value is
`(written - 4) mod 2^32` rather than `written mod 2^32`. -/
theorem claim_C10 (L : Libs σ) (buf : List Nat) (fuel : Nat) :
    (∀ r, lz4_legacy L 1 buf fuel = .ok r →
      8 ≤ r.written.length ∧ r.ret = (r.written.length - 4) % U32)
  ∧ (∀ r, lz4_legacy L 0 buf fuel = .ok r → r.ret = r.written.length % U32) :=
  ⟨lz4_legacy_enc_ret L buf fuel, lz4_legacy_dec_ret L buf fuel⟩

/-- C10 witness: the amended counter theorem instantiated at a
concrete LZ4-legacy encode run (14 bytes written, 10 returned). -/
theorem claim_C10_witness :
    lz4_legacy toyLibs 1 [6] 2 =
      .ok ⟨10, [2, 33, 76, 24, 2, 0, 0, 0, 1, 6, 1, 0, 0, 0], 1, [(1, false)]⟩
  ∧ (8 ≤ ([2, 33, 76, 24, 2, 0, 0, 0, 1, 6, 1, 0, 0, 0] : List Nat).length
      ∧ (10 : Nat) =
          (([2, 33, 76, 24, 2, 0, 0, 0, 1, 6, 1, 0, 0, 0] : List Nat).length - 4) % U32) :=
  ⟨rfl,
   (claim_C10 toyLibs [6] 2).1
     ⟨10, [2, 33, 76, 24, 2, 0, 0, 0, 1, 6, 1, 0, 0, 0], 1, [(1, false)]⟩ rfl⟩

theorem lz4LegacyMagic_length : lz4LegacyMagic.length = 4 := rfl

/-- C10 counterexample: encoding 2^32 zero bytes writes 2^32 + 2568
bytes but returns 2564, which differs from the true byte count modulo
2^32 (2568), because the trailer is written uncounted. -/
theorem claim_C10_counterexample :
    lz4_legacy toyLibs 1 (List.replicate (512 * LZ4_LEGACY_BLOCKSIZE) 0)
        ((List.replicate (512 * LZ4_LEGACY_BLOCKSIZE) 0).length + 1) =
      .ok ⟨2564, legacyEncBytes toyLibs (List.replicate (512 * LZ4_LEGACY_BLOCKSIZE) 0),
           (List.replicate (512 * LZ4_LEGACY_BLOCKSIZE) 0).length,
           (legacyChunks (List.replicate (512 * LZ4_LEGACY_BLOCKSIZE) 0)).map
             (fun c => (c.length, false))⟩
  ∧ (legacyEncBytes toyLibs (List.replicate (512 * LZ4_LEGACY_BLOCKSIZE) 0)).length
      = 4294969864
  ∧ U32 ≤ 4294969864
  ∧ (2564 : Nat) ≠ 4294969864 % U32 := by
  have hch := legacyChunks_replicate 512 (by omega) 0
  have hone : ∀ c : List Nat, toyLibs.lz4CompressHC c = 1 :: c := fun c => rfl
  have hflat : ((legacyChunks (List.replicate (512 * LZ4_LEGACY_BLOCKSIZE) 0)).flatMap
      (fun c => le32 (toyLibs.lz4CompressHC c).length ++ toyLibs.lz4CompressHC c)).length
      = 4294969856 := by
    rw [hch, List.length_flatMap, List.map_replicate, List.sum_const_nat]
    rw [Function.comp_apply, hone, List.length_append, le32_length, List.length_cons,
      List.length_replicate]
    simp only [LZ4_LEGACY_BLOCKSIZE]
  have hsum : ((legacyChunks (List.replicate (512 * LZ4_LEGACY_BLOCKSIZE) 0)).map
      (fun c => 4 + (toyLibs.lz4CompressHC c).length)).sum = 4294969856 := by
    rw [hch, List.map_replicate, List.sum_const_nat]
    show 512 * (4 + (toyLibs.lz4CompressHC (List.replicate LZ4_LEGACY_BLOCKSIZE 0)).length)
        = 4294969856
    rw [hone, List.length_cons, List.length_replicate]
    simp only [LZ4_LEGACY_BLOCKSIZE]
  have hlen : (legacyEncBytes toyLibs (List.replicate (512 * LZ4_LEGACY_BLOCKSIZE) 0)).length
      = 4294969864 := by
    rw [legacyEncBytes, List.length_append, List.length_append, hflat,
      lz4LegacyMagic_length, le32_length]
  have h := lz4_legacy_enc_eq toyLibs (fun c => List.cons_ne_nil 1 c)
      (List.replicate (512 * LZ4_LEGACY_BLOCKSIZE) 0)
  rw [hsum] at h
  have h2564 : (4 + 4294969856) % U32 = 2564 := by simp only [U32]
  rw [h2564] at h
  refine ⟨h, hlen, by simp only [U32]; omega, by simp only [U32]; omega⟩


theorem gzInner_ok (code : σ → List Nat → Bool → Nat → σ × Nat × List Nat × Int) :
    ∀ fuel st availIn flush st1 dTot dW,
      gzInner code st availIn flush fuel = .ok (st1, dTot, dW) → dTot = dW.length := by
  intro fuel
  induction fuel with
  | zero => intro st availIn flush st1 dTot dW h; exact absurd h (by simp [gzInner])
  | succ fuel ih =>
    intro st availIn flush st1 dTot dW h
    simp only [gzInner] at h
    split at h
    · exact absurd h (by simp)
    · split at h
      · split at h
        · exact absurd h (by simp)
        · rename_i trip heq
          cases h
          have := ih _ _ _ _ _ _ heq
          simp [this]
      · cases h
        simp

theorem gzOuter_ok (code : σ → List Nat → Bool → Nat → σ × Nat × List Nat × Int)
    (buf : List Nat) :
    ∀ fuel st pos total r, pos ≤ buf.length →
      gzOuter code buf st pos total fuel = .ok r →
      r.ret = total + r.written.length ∧ r.finalPos = buf.length ∧
      r.windows = windowList CHUNK (buf.length - pos) := by
  intro fuel
  induction fuel with
  | zero => intro st pos total r _ h; exact absurd h (by simp [gzOuter])
  | succ fuel ih =>
    intro st pos total r hpos h
    simp only [gzOuter] at h
    by_cases hfin : buf.length ≤ pos + CHUNK
    · simp only [if_pos hfin, decide_eq_true hfin] at h
      cases hin : gzInner code st (slice buf pos (buf.length - pos)) true fuel with
      | error e => rw [hin] at h; exact absurd h (by simp)
      | ok trip =>
        obtain ⟨st1, dTot, dW⟩ := trip
        rw [hin] at h
        dsimp only at h
        rw [if_neg (by omega : ¬ (pos + (buf.length - pos) < buf.length))] at h
        cases h
        have hd := gzInner_ok code fuel _ _ _ _ _ _ hin
        refine ⟨by simp [hd], by simp; omega, ?_⟩
        rw [windowList, if_pos (Or.inr (by omega))]
    · simp only [if_neg hfin, decide_eq_false hfin] at h
      cases hin : gzInner code st (slice buf pos CHUNK) false fuel with
      | error e => rw [hin] at h; exact absurd h (by simp)
      | ok trip =>
        obtain ⟨st1, dTot, dW⟩ := trip
        rw [hin] at h
        dsimp only at h
        rw [if_pos (by omega : pos + CHUNK < buf.length)] at h
        cases hrec : gzOuter code buf st1 (pos + CHUNK) (total + dTot) fuel with
        | error e => rw [hrec] at h; exact absurd h (by simp)
        | ok r1 =>
          rw [hrec] at h
          dsimp only at h
          cases h
          obtain ⟨h1, h2, h3⟩ := ih _ _ _ _ (by omega) hrec
          have hd := gzInner_ok code fuel _ _ _ _ _ _ hin
          refine ⟨?_, h2, ?_⟩
          · simp only [h1, hd, List.length_append]
            omega
          · simp only [h3]
            conv_rhs => rw [windowList]
            rw [if_neg (not_or.mpr ⟨by decide, by omega⟩)]
            have hx : buf.length - pos - CHUNK = buf.length - (pos + CHUNK) := by omega
            rw [hx]


theorem lzInner_ok (code : σ → List Nat → Bool → Nat → σ × Nat × List Nat × Nat) :
    ∀ fuel st availIn action st1 dTot dW ret2,
      lzInner code st availIn action fuel = .ok (st1, dTot, dW, ret2) → dTot = dW.length := by
  intro fuel
  induction fuel with
  | zero => intro st availIn action st1 dTot dW ret2 h; exact absurd h (by simp [lzInner])
  | succ fuel ih =>
    intro st availIn action st1 dTot dW ret2 h
    simp only [lzInner] at h
    split at h
    · split at h
      · exact absurd h (by simp)
      · rename_i trip heq
        cases h
        have := ih _ _ _ _ _ _ _ heq
        simp [this]
    · cases h
      simp

theorem lzOuter_ok (code : σ → List Nat → Bool → Nat → σ × Nat × List Nat × Nat)
    (buf : List Nat) :
    ∀ fuel st pos total r, pos ≤ buf.length →
      lzOuter code buf st pos total fuel = .ok r →
      r.ret = total + r.written.length ∧ r.finalPos = buf.length ∧
      r.windows = windowList BUFSIZ (buf.length - pos) := by
  intro fuel
  induction fuel with
  | zero => intro st pos total r _ h; exact absurd h (by simp [lzOuter])
  | succ fuel ih =>
    intro st pos total r hpos h
    simp only [lzOuter] at h
    by_cases hfin : buf.length ≤ pos + BUFSIZ
    · simp only [if_pos hfin, decide_eq_true hfin] at h
      cases hin : lzInner code st (slice buf pos (buf.length - pos)) true fuel with
      | error e => rw [hin] at h; exact absurd h (by simp)
      | ok trip =>
        obtain ⟨st1, dTot, dW, ret⟩ := trip
        rw [hin] at h
        dsimp only at h
        split at h
        · exact absurd h (by simp)
        · rw [if_neg (by omega : ¬ (pos + (buf.length - pos) < buf.length))] at h
          cases h
          have hd := lzInner_ok code fuel _ _ _ _ _ _ _ hin
          refine ⟨by simp [hd], by simp; omega, ?_⟩
          rw [windowList, if_pos (Or.inr (by omega))]
    · simp only [if_neg hfin, decide_eq_false hfin] at h
      cases hin : lzInner code st (slice buf pos BUFSIZ) false fuel with
      | error e => rw [hin] at h; exact absurd h (by simp)
      | ok trip =>
        obtain ⟨st1, dTot, dW, ret⟩ := trip
        rw [hin] at h
        dsimp only at h
        split at h
        · exact absurd h (by simp)
        · rw [if_pos (by omega : pos + BUFSIZ < buf.length)] at h
          cases hrec : lzOuter code buf st1 (pos + BUFSIZ) (total + dTot) fuel with
          | error e => rw [hrec] at h; exact absurd h (by simp)
          | ok r1 =>
            rw [hrec] at h
            dsimp only at h
            cases h
            obtain ⟨h1, h2, h3⟩ := ih _ _ _ _ (by omega) hrec
            have hd := lzInner_ok code fuel _ _ _ _ _ _ _ hin
            refine ⟨?_, h2, ?_⟩
            · simp only [h1, hd, List.length_append]
              omega
            · simp only [h3]
              conv_rhs => rw [windowList]
              rw [if_neg (not_or.mpr ⟨by decide, by omega⟩)]
              have hx : buf.length - pos - BUFSIZ = buf.length - (pos + BUFSIZ) := by omega
              rw [hx]

theorem bzInner_ok (step : σ → List Nat → σ × Nat × List Nat × Int) :
    ∀ fuel st availIn st1 dTot dW,
      bzInner step st availIn fuel = .ok (st1, dTot, dW) → dTot = dW.length := by
  intro fuel
  induction fuel with
  | zero => intro st availIn st1 dTot dW h; exact absurd h (by simp [bzInner])
  | succ fuel ih =>
    intro st availIn st1 dTot dW h
    simp only [bzInner] at h
    split at h
    · split at h
      · exact absurd h (by simp)
      · rename_i trip heq
        cases h
        have := ih _ _ _ _ _ heq
        simp [this]
    · cases h
      simp

theorem bzOuter_ok (step : Bool → σ → List Nat → σ × Nat × List Nat × Int)
    (buf : List Nat) :
    ∀ fuel st pos total r, pos ≤ buf.length →
      bzOuter step buf st pos total fuel = .ok r →
      r.ret = total + r.written.length ∧ r.finalPos = buf.length ∧
      r.windows = windowList CHUNK (buf.length - pos) := by
  intro fuel
  induction fuel with
  | zero => intro st pos total r _ h; exact absurd h (by simp [bzOuter])
  | succ fuel ih =>
    intro st pos total r hpos h
    simp only [bzOuter] at h
    by_cases hfin : buf.length ≤ pos + CHUNK
    · simp only [if_pos hfin, decide_eq_true hfin] at h
      cases hin : bzInner (step true) st (slice buf pos (buf.length - pos)) fuel with
      | error e => rw [hin] at h; exact absurd h (by simp)
      | ok trip =>
        obtain ⟨st1, dTot, dW⟩ := trip
        rw [hin] at h
        dsimp only at h
        rw [if_neg (by omega : ¬ (pos + (buf.length - pos) < buf.length))] at h
        cases h
        have hd := bzInner_ok (step true) fuel _ _ _ _ _ hin
        refine ⟨by simp [hd], by simp; omega, ?_⟩
        rw [windowList, if_pos (Or.inr (by omega))]
    · simp only [if_neg hfin, decide_eq_false hfin] at h
      cases hin : bzInner (step false) st (slice buf pos CHUNK) fuel with
      | error e => rw [hin] at h; exact absurd h (by simp)
      | ok trip =>
        obtain ⟨st1, dTot, dW⟩ := trip
        rw [hin] at h
        dsimp only at h
        rw [if_pos (by omega : pos + CHUNK < buf.length)] at h
        cases hrec : bzOuter step buf st1 (pos + CHUNK) (total + dTot) fuel with
        | error e => rw [hrec] at h; exact absurd h (by simp)
        | ok r1 =>
          rw [hrec] at h
          dsimp only at h
          cases h
          obtain ⟨h1, h2, h3⟩ := ih _ _ _ _ (by omega) hrec
          have hd := bzInner_ok (step false) fuel _ _ _ _ _ hin
          refine ⟨?_, h2, ?_⟩
          · simp only [h1, hd, List.length_append]
            omega
          · simp only [h3]
            conv_rhs => rw [windowList]
            rw [if_neg (not_or.mpr ⟨by decide, by omega⟩)]
            have hx : buf.length - pos - CHUNK = buf.length - (pos + CHUNK) := by omega
            rw [hx]

theorem bzInner_error (step : σ → List Nat → σ × Nat × List Nat × Int) :
    ∀ fuel st availIn e,
      bzInner step st availIn fuel = .error e → e = .fuelOut := by
  intro fuel
  induction fuel with
  | zero =>
    intro st availIn e h
    simp only [bzInner] at h
    cases h
    rfl
  | succ fuel ih =>
    intro st availIn e h
    simp only [bzInner] at h
    split at h
    · split at h
      · rename_i e1 heq
        cases h
        exact ih _ _ _ heq
      · exact absurd h (by simp)
    · exact absurd h (by simp)

theorem bzOuter_error (step : Bool → σ → List Nat → σ × Nat × List Nat × Int)
    (buf : List Nat) :
    ∀ fuel st pos total e,
      bzOuter step buf st pos total fuel = .error e → e = .fuelOut := by
  intro fuel
  induction fuel with
  | zero =>
    intro st pos total e h
    simp only [bzOuter] at h
    cases h
    rfl
  | succ fuel ih =>
    intro st pos total e h
    simp only [bzOuter] at h
    by_cases hfin : buf.length ≤ pos + CHUNK
    · simp only [if_pos hfin, decide_eq_true hfin] at h
      cases hin : bzInner (step true) st (slice buf pos (buf.length - pos)) fuel with
      | error e1 =>
        rw [hin] at h
        dsimp only at h
        cases h
        exact bzInner_error _ _ _ _ _ hin
      | ok trip =>
        obtain ⟨st1, dTot, dW⟩ := trip
        rw [hin] at h
        dsimp only at h
        split at h
        · split at h
          · rename_i e1 heq
            cases h
            exact ih _ _ _ _ heq
          · exact absurd h (by simp)
        · exact absurd h (by simp)
    · simp only [if_neg hfin, decide_eq_false hfin] at h
      cases hin : bzInner (step false) st (slice buf pos CHUNK) fuel with
      | error e1 =>
        rw [hin] at h
        dsimp only at h
        cases h
        exact bzInner_error _ _ _ _ _ hin
      | ok trip =>
        obtain ⟨st1, dTot, dW⟩ := trip
        rw [hin] at h
        dsimp only at h
        split at h
        · split at h
          · rename_i e1 heq
            cases h
            exact ih _ _ _ _ heq
          · exact absurd h (by simp)
        · exact absurd h (by simp)


theorem lz4DecInner_ret (L : Libs σ) (outCap : Nat) (buf : List Nat) :
    ∀ fuel st pos availIn st2 pos2 dTot dW hint,
      lz4DecInner L outCap buf st pos availIn fuel = .ok (st2, pos2, dTot, dW, hint) →
      dTot = dW.length := by
  intro fuel
  induction fuel with
  | zero =>
    intro st pos availIn st2 pos2 dTot dW hint h
    exact absurd h (by simp [lz4DecInner])
  | succ fuel ih =>
    intro st pos availIn st2 pos2 dTot dW hint h
    simp only [lz4DecInner] at h
    split at h
    · exact absurd h (by simp)
    · split at h
      · split at h
        · exact absurd h (by simp)
        · rename_i tup heq
          cases h
          have := ih _ _ _ _ _ _ _ _ heq
          simp [this]
      · cases h
        simp

theorem lz4DecInner_pos (L : Libs σ) (outCap : Nat) (buf : List Nat)
    (hrd : ∀ st cap src, (L.lz4fDecompress st cap src).2.2.1 ≤ src.length) :
    ∀ fuel st pos availIn st2 pos2 dTot dW hint, pos ≤ buf.length →
      lz4DecInner L outCap buf st pos availIn fuel = .ok (st2, pos2, dTot, dW, hint) →
      pos2 ≤ buf.length := by
  intro fuel
  induction fuel with
  | zero =>
    intro st pos availIn st2 pos2 dTot dW hint _ h
    exact absurd h (by simp [lz4DecInner])
  | succ fuel ih =>
    intro st pos availIn st2 pos2 dTot dW hint hpos h
    simp only [lz4DecInner] at h
    have hread := hrd st outCap (slice buf pos availIn)
    have hsl : (slice buf pos availIn).length ≤ buf.length - pos := by
      simp only [slice, List.length_take, List.length_drop]
      omega
    split at h
    · exact absurd h (by simp)
    · split at h
      · split at h
        · exact absurd h (by simp)
        · rename_i tup heq
          cases h
          exact ih _ _ _ _ _ _ _ _ (by omega) heq
      · cases h
        omega

theorem lz4DecOuter_ret (L : Libs σ) (outCap : Nat) (buf : List Nat) :
    ∀ fuel st pos total r,
      lz4DecOuter L outCap buf st pos total fuel = .ok r →
      r.ret = total + r.written.length := by
  intro fuel
  induction fuel with
  | zero => intro st pos total r h; exact absurd h (by simp [lz4DecOuter])
  | succ fuel ih =>
    intro st pos total r h
    simp only [lz4DecOuter] at h
    cases hin : lz4DecInner L outCap buf st pos
        (if buf.length ≤ pos + lz4BlockSize then buf.length - pos else lz4BlockSize) fuel with
    | error e => rw [hin] at h; exact absurd h (by simp)
    | ok tup =>
      obtain ⟨st1, pos1, dTot, dW, hint⟩ := tup
      rw [hin] at h
      dsimp only at h
      have hd := lz4DecInner_ret L outCap buf fuel _ _ _ _ _ _ _ _ hin
      split at h
      · cases hrec : lz4DecOuter L outCap buf st1 pos1 (total + dTot) fuel with
        | error e => rw [hrec] at h; exact absurd h (by simp)
        | ok r1 =>
          rw [hrec] at h
          dsimp only at h
          cases h
          have h1 := ih _ _ _ _ hrec
          simp only [h1, hd, List.length_append]
          omega
      · cases h
        simp only [hd]

theorem lz4DecOuter_pos (L : Libs σ) (outCap : Nat) (buf : List Nat)
    (hrd : ∀ st cap src, (L.lz4fDecompress st cap src).2.2.1 ≤ src.length) :
    ∀ fuel st pos total r, pos ≤ buf.length →
      lz4DecOuter L outCap buf st pos total fuel = .ok r →
      r.finalPos ≤ buf.length := by
  intro fuel
  induction fuel with
  | zero => intro st pos total r _ h; exact absurd h (by simp [lz4DecOuter])
  | succ fuel ih =>
    intro st pos total r hpos h
    simp only [lz4DecOuter] at h
    cases hin : lz4DecInner L outCap buf st pos
        (if buf.length ≤ pos + lz4BlockSize then buf.length - pos else lz4BlockSize) fuel with
    | error e => rw [hin] at h; exact absurd h (by simp)
    | ok tup =>
      obtain ⟨st1, pos1, dTot, dW, hint⟩ := tup
      rw [hin] at h
      dsimp only at h
      have hp1 := lz4DecInner_pos L outCap buf hrd fuel _ _ _ _ _ _ _ _ hpos hin
      split at h
      · cases hrec : lz4DecOuter L outCap buf st1 pos1 (total + dTot) fuel with
        | error e => rw [hrec] at h; exact absurd h (by simp)
        | ok r1 =>
          rw [hrec] at h
          dsimp only at h
          cases h
          exact ih st1 pos1 (total + dTot) r1 hp1 hrec
      · cases h
        exact hp1

theorem lz4EncOuter_ret (L : Libs σ) (buf : List Nat) :
    ∀ fuel st pos total st2 r,
      lz4EncOuter L buf st pos total fuel = .ok (st2, r) →
      r.ret = total + r.written.length := by
  intro fuel
  induction fuel with
  | zero => intro st pos total st2 r h; exact absurd h (by simp [lz4EncOuter])
  | succ fuel ih =>
    intro st pos total st2 r h
    simp only [lz4EncOuter] at h
    split at h <;>
    · split at h
      · exact absurd h (by simp)
      · split at h
        · split at h
          · exact absurd h (by simp)
          · rename_i st3 r1 heq
            cases h
            have h1 := ih _ _ _ _ _ heq
            simp only [h1, List.length_append]
            omega
        · cases h
          simp

theorem lz4EncOuter_run (L : Libs σ) (buf : List Nat)
    (hupd : ∀ st inp, inp ≠ [] → (L.lz4fCompressUpdate st inp).2.1 ≠ []) :
    ∀ fuel st pos total st2 r, pos ≤ buf.length →
      lz4EncOuter L buf st pos total fuel = .ok (st2, r) →
      r.finalPos = buf.length ∧
      r.windows = (windowList lz4BlockSize (buf.length - pos)).map
        (fun w => (w.1, false)) := by
  intro fuel
  induction fuel with
  | zero => intro st pos total st2 r _ h; exact absurd h (by simp [lz4EncOuter])
  | succ fuel ih =>
    intro st pos total st2 r hpos h
    simp only [lz4EncOuter] at h
    by_cases hfin : buf.length ≤ pos + lz4BlockSize
    · simp only [if_pos hfin] at h
      split at h
      · exact absurd h (by simp)
      · rw [if_neg (by omega : ¬ (pos + (buf.length - pos) < buf.length ∧
            (L.lz4fCompressUpdate st (slice buf pos (buf.length - pos))).2.1.length ≠ 0))] at h
        cases h
        refine ⟨by simp; omega, ?_⟩
        rw [windowList, if_pos (Or.inr (by omega))]
        simp
    · simp only [if_neg hfin] at h
      split at h
      · exact absurd h (by simp)
      · have hslne : slice buf pos lz4BlockSize ≠ [] := by
          have hl : (slice buf pos lz4BlockSize).length ≠ 0 := by
            simp only [slice, List.length_take, List.length_drop, lz4BlockSize]
            simp only [lz4BlockSize] at hfin
            omega
          exact fun hh => hl (by simp [hh])
        have hne := hupd st (slice buf pos lz4BlockSize) hslne
        have hlenne : (L.lz4fCompressUpdate st (slice buf pos lz4BlockSize)).2.1.length ≠ 0 := by
          simpa [List.length_eq_zero] using hne
        rw [if_pos (⟨by omega, hlenne⟩ : pos + lz4BlockSize < buf.length ∧
            (L.lz4fCompressUpdate st (slice buf pos lz4BlockSize)).2.1.length ≠ 0)] at h
        cases hrec : lz4EncOuter L buf
            (L.lz4fCompressUpdate st (slice buf pos lz4BlockSize)).1
            (pos + lz4BlockSize)
            (total + (L.lz4fCompressUpdate st (slice buf pos lz4BlockSize)).2.1.length) fuel with
        | error e => rw [hrec] at h; exact absurd h (by simp)
        | ok pair =>
          obtain ⟨st3, r1⟩ := pair
          rw [hrec] at h
          dsimp only at h
          cases h
          obtain ⟨h2, h3⟩ := ih _ _ _ _ _ (by omega) hrec
          refine ⟨h2, ?_⟩
          simp only [h3]
          conv_rhs => rw [windowList]
          rw [if_neg (not_or.mpr ⟨by decide, by omega⟩)]
          have hx : buf.length - pos - lz4BlockSize = buf.length - (pos + lz4BlockSize) := by
            omega
          rw [List.map_cons, hx]


theorem gzip_ok (L : Libs σ) (mode : Nat) (buf : List Nat) (fuel : Nat) :
    ∀ r, gzip L mode buf fuel = .ok r →
      r.ret = r.written.length ∧ r.finalPos = buf.length ∧
      r.windows = windowList CHUNK buf.length := by
  intro r h
  simp only [gzip] at h
  cases hinit : (if mode = 0 then L.inflateInit else L.deflateInit) with
  | none => rw [hinit] at h; exact absurd h (by simp)
  | some st =>
    rw [hinit] at h
    dsimp only at h
    have := gzOuter_ok (if mode = 0 then L.inflate else L.deflate) buf fuel st 0 0 r
      (Nat.zero_le _) h
    simpa using this

theorem lzma_ok (L : Libs σ) (mode : Nat) (buf : List Nat) (fuel : Nat) :
    ∀ r, lzma L mode buf fuel = .ok r →
      r.ret = r.written.length ∧ r.finalPos = buf.length ∧
      r.windows = windowList BUFSIZ buf.length := by
  intro r h
  simp only [lzma] at h
  cases hinit : (match mode with
      | 0 => L.lzmaAutoDec
      | 1 => L.lzmaStreamEnc
      | _ => L.lzmaAloneEnc) with
  | none => rw [hinit] at h; exact absurd h (by simp)
  | some st =>
    rw [hinit] at h
    dsimp only at h
    have := lzOuter_ok L.lzmaCode buf fuel st 0 0 r (Nat.zero_le _) h
    simpa using this

theorem bzip2_ok (L : Libs σ) (mode : Nat) (buf : List Nat) (fuel : Nat) :
    ∀ r, bzip2 L mode buf fuel = .ok r →
      r.ret = r.written.length ∧ r.finalPos = buf.length ∧
      r.windows = windowList CHUNK buf.length := by
  intro r h
  simp only [bzip2] at h
  cases hinit : (if mode = 0 then L.bzDecInit else L.bzCompInit) with
  | none => rw [hinit] at h; exact absurd h (by simp)
  | some st =>
    rw [hinit] at h
    dsimp only at h
    have := bzOuter_ok _ buf fuel st 0 0 r (Nat.zero_le _) h
    simpa using this

theorem bzip2_error (L : Libs σ) (mode : Nat) (buf : List Nat) (fuel : Nat) :
    ∀ e, bzip2 L mode buf fuel = .error e → e = .initFail ∨ e = .fuelOut := by
  intro e h
  simp only [bzip2] at h
  cases hinit : (if mode = 0 then L.bzDecInit else L.bzCompInit) with
  | none =>
    rw [hinit] at h
    dsimp only at h
    cases h
    exact Or.inl rfl
  | some st =>
    rw [hinit] at h
    dsimp only at h
    exact Or.inr (bzOuter_error _ buf fuel st 0 0 e h)

theorem lz4_ok (L : Libs σ) (mode : Nat) (buf : List Nat) (fuel : Nat) :
    ∀ r, lz4 L mode buf fuel = .ok r → r.ret = r.written.length := by
  intro r h
  simp only [lz4] at h
  split at h
  · cases hinit : L.lz4fCreateDec with
    | none => rw [hinit] at h; exact absurd h (by simp)
    | some st =>
      rw [hinit] at h
      dsimp only at h
      cases hfi0 : L.lz4fGetFrameInfo buf with
      | none => rw [hfi0] at h; exact absurd h (by simp)
      | some pr =>
        obtain ⟨read, bsid⟩ := pr
        rw [hfi0] at h
        dsimp only at h
        cases hcap : lz4BlockSizeIdCap bsid with
        | none => rw [hcap] at h; exact absurd h (by simp)
        | some outCap =>
          rw [hcap] at h
          dsimp only at h
          have := lz4DecOuter_ret L outCap buf fuel st read 0 r h
          simpa using this
  · cases hinit : L.lz4fCreateComp with
    | none => rw [hinit] at h; exact absurd h (by simp)
    | some st =>
      rw [hinit] at h
      dsimp only at h
      split at h
      · exact absurd h (by simp)
      · cases hrec : lz4EncOuter L buf (L.lz4fCompressBegin st).1 0
            (L.lz4fCompressBegin st).2.1.length fuel with
        | error e => rw [hrec] at h; exact absurd h (by simp)
        | ok pair =>
          obtain ⟨st2, r1⟩ := pair
          rw [hrec] at h
          dsimp only at h
          split at h
          · exact absurd h (by simp)
          · cases h
            have h1 := lz4EncOuter_ret L buf fuel _ _ _ _ _ hrec
            simp only [h1, List.length_append]

theorem lz4_dec_pos (L : Libs σ) (buf : List Nat) (fuel : Nat)
    (hrd : ∀ st cap src, (L.lz4fDecompress st cap src).2.2.1 ≤ src.length)
    (hfi : ∀ p id, L.lz4fGetFrameInfo buf = some (p, id) → p ≤ buf.length) :
    ∀ r, lz4 L 0 buf fuel = .ok r → r.finalPos ≤ buf.length := by
  intro r h
  simp only [lz4, if_pos rfl] at h
  cases hinit : L.lz4fCreateDec with
  | none => rw [hinit] at h; exact absurd h (by simp)
  | some st =>
    rw [hinit] at h
    dsimp only at h
    cases hfi0 : L.lz4fGetFrameInfo buf with
    | none => rw [hfi0] at h; exact absurd h (by simp)
    | some pr =>
      obtain ⟨read, bsid⟩ := pr
      rw [hfi0] at h
      dsimp only at h
      cases hcap : lz4BlockSizeIdCap bsid with
      | none => rw [hcap] at h; exact absurd h (by simp)
      | some outCap =>
        rw [hcap] at h
        dsimp only at h
        exact lz4DecOuter_pos L outCap buf hrd fuel st read 0 r (hfi read bsid hfi0) h

theorem lz4_enc_run (L : Libs σ) (buf : List Nat) (fuel : Nat)
    (hupd : ∀ st inp, inp ≠ [] → (L.lz4fCompressUpdate st inp).2.1 ≠ []) :
    ∀ r, lz4 L 1 buf fuel = .ok r →
      r.finalPos = buf.length ∧
      r.windows = (windowList lz4BlockSize buf.length).map (fun w => (w.1, false)) := by
  intro r h
  simp only [lz4, if_neg (by omega : ¬ (1 = 0))] at h
  cases hinit : L.lz4fCreateComp with
  | none => rw [hinit] at h; exact absurd h (by simp)
  | some st =>
    rw [hinit] at h
    dsimp only at h
    split at h
    · exact absurd h (by simp)
    · cases hrec : lz4EncOuter L buf (L.lz4fCompressBegin st).1 0
          (L.lz4fCompressBegin st).2.1.length fuel with
      | error e => rw [hrec] at h; exact absurd h (by simp)
      | ok pair =>
        obtain ⟨st2, r1⟩ := pair
        rw [hrec] at h
        dsimp only at h
        split at h
        · exact absurd h (by simp)
        · cases h
          have := lz4EncOuter_run L buf hupd fuel _ _ _ _ _ (Nat.zero_le _) hrec
          simpa using this

theorem lz4LegacyEncLoop_pos (L : Libs σ) (buf : List Nat) :
    ∀ fuel pos total r, pos ≤ buf.length →
      lz4LegacyEncLoop L buf pos total fuel = .ok r → r.finalPos = buf.length := by
  intro fuel
  induction fuel with
  | zero => intro pos total r _ h; exact absurd h (by simp [lz4LegacyEncLoop])
  | succ fuel ih =>
    intro pos total r hpos h
    simp only [lz4LegacyEncLoop] at h
    by_cases hfin : buf.length ≤ pos + LZ4_LEGACY_BLOCKSIZE
    · simp only [if_pos hfin] at h
      split at h
      · exact absurd h (by simp)
      · rw [if_neg (by omega : ¬ (pos + (buf.length - pos) < buf.length))] at h
        cases h
        show pos + (buf.length - pos) = buf.length
        omega
    · simp only [if_neg hfin] at h
      split at h
      · exact absurd h (by simp)
      · rw [if_pos (by omega : pos + LZ4_LEGACY_BLOCKSIZE < buf.length)] at h
        cases hrec : lz4LegacyEncLoop L buf (pos + LZ4_LEGACY_BLOCKSIZE)
            (((total + 4) % U32 +
              (L.lz4CompressHC (slice buf pos LZ4_LEGACY_BLOCKSIZE)).length) % U32) fuel with
        | error e => rw [hrec] at h; exact absurd h (by simp)
        | ok r1 =>
          rw [hrec] at h
          dsimp only at h
          cases h
          exact ih (pos + LZ4_LEGACY_BLOCKSIZE) _ r1 (by omega) hrec

theorem lz4_legacy_enc_pos (L : Libs σ) (buf : List Nat) (fuel : Nat) :
    ∀ r, lz4_legacy L 1 buf fuel = .ok r → r.finalPos = buf.length := by
  intro r h
  simp only [lz4_legacy, if_neg (by omega : ¬ (1 = 0))] at h
  cases hrec : lz4LegacyEncLoop L buf 0 (4 % U32) fuel with
  | error e => rw [hrec] at h; exact absurd h (by simp)
  | ok r1 =>
    rw [hrec] at h
    dsimp only at h
    cases h
    exact lz4LegacyEncLoop_pos L buf fuel 0 (4 % U32) r1 (Nat.zero_le _) hrec

theorem windowList_cursors_le (chunk : Nat) :
    ∀ size pos q, q ∈ cursors pos (windowList chunk size) → q ≤ pos + size := by
  intro size
  induction size using Nat.strong_induction_on with
  | _ size ih =>
    intro pos q hq
    by_cases hc : chunk = 0 ∨ size ≤ chunk
    · rw [windowList, if_pos hc] at hq
      simp only [cursors, List.mem_cons, List.mem_singleton] at hq
      rcases hq with hq | hq | hq
      · omega
      · omega
      · simp at hq
    · rw [windowList, if_neg hc] at hq
      simp only [cursors, List.mem_cons] at hq
      push_neg at hc
      rcases hq with hq | hq
      · omega
      · have := ih (size - chunk) (by omega) (pos + chunk) q hq
        omega

theorem windowList_snd (chunk : Nat) :
    ∀ size, (windowList chunk size).map Prod.snd =
      List.replicate ((windowList chunk size).length - 1) false ++ [true] := by
  intro size
  induction size using Nat.strong_induction_on with
  | _ size ih =>
    by_cases hc : chunk = 0 ∨ size ≤ chunk
    · rw [windowList, if_pos hc]
      simp
    · rw [windowList, if_neg hc]
      push_neg at hc
      simp only [List.map_cons, List.length_cons]
      rw [ih (size - chunk) (by omega)]
      have hlen : 1 ≤ (windowList chunk (size - chunk)).length := by
        rw [windowList]
        split
        · simp
        · simp
      rw [show (windowList chunk (size - chunk)).length + 1 - 1 =
            ((windowList chunk (size - chunk)).length - 1) + 1 by omega]
      rw [List.replicate_succ]
      simp


/-- C4 (amended): every transcoder that returns normally returns
exactly the number of bytes it wrote, except `lz4_legacy`: its decode
returns the byte count modulo `2^32`, and its encode writes the 4-byte
trailing size field without counting it, returning
`(written - 4) mod 2^32`. -/
theorem claim_C4 (L : Libs σ) (mode : Nat) (buf : List Nat) (fuel : Nat) :
    (∀ r, gzip L mode buf fuel = .ok r → r.ret = r.written.length)
  ∧ (∀ r, lzma L mode buf fuel = .ok r → r.ret = r.written.length)
  ∧ (∀ r, bzip2 L mode buf fuel = .ok r → r.ret = r.written.length)
  ∧ (∀ r, lz4 L mode buf fuel = .ok r → r.ret = r.written.length)
  ∧ (∀ r, lz4_legacy L 0 buf fuel = .ok r → r.ret = r.written.length % U32)
  ∧ (∀ r, lz4_legacy L 1 buf fuel = .ok r →
      8 ≤ r.written.length ∧ r.ret = (r.written.length - 4) % U32) :=
  ⟨fun r h => (gzip_ok L mode buf fuel r h).1,
   fun r h => (lzma_ok L mode buf fuel r h).1,
   fun r h => (bzip2_ok L mode buf fuel r h).1,
   lz4_ok L mode buf fuel,
   lz4_legacy_dec_ret L buf fuel,
   lz4_legacy_enc_ret L buf fuel⟩

/-- C4 witness: the amended return-value theorem instantiated at
concrete runs of all five transcoders over the `toyLibs` codecs. -/
theorem claim_C4_witness :
    gzip toyLibs 0 [1, 2] 5 = .ok ⟨2, [1, 2], 2, [(2, true)]⟩
  ∧ (2 : Nat) = ([1, 2] : List Nat).length
  ∧ lzma toyLibs 1 [4] 5 = .ok ⟨1, [4], 1, [(1, true)]⟩
  ∧ (1 : Nat) = ([4] : List Nat).length
  ∧ bzip2 toyLibs 0 [6, 7] 5 = .ok ⟨2, [6, 7], 2, [(2, true)]⟩
  ∧ (2 : Nat) = ([6, 7] : List Nat).length
  ∧ lz4 toyLibs 1 [1] 5 = .ok ⟨4, [9, 7, 1, 8], 1, [(1, false)]⟩
  ∧ (4 : Nat) = ([9, 7, 1, 8] : List Nat).length
  ∧ lz4_legacy toyLibs 0 [2, 33, 76, 24, 250, 250, 250, 250, 0] 2 = .ok ⟨0, [], 8, []⟩
  ∧ (0 : Nat) = ([] : List Nat).length % U32
  ∧ lz4_legacy toyLibs 1 [8] 2 =
      .ok ⟨10, [2, 33, 76, 24, 2, 0, 0, 0, 1, 8, 1, 0, 0, 0], 1, [(1, false)]⟩
  ∧ (8 ≤ ([2, 33, 76, 24, 2, 0, 0, 0, 1, 8, 1, 0, 0, 0] : List Nat).length
      ∧ (10 : Nat) =
        (([2, 33, 76, 24, 2, 0, 0, 0, 1, 8, 1, 0, 0, 0] : List Nat).length - 4) % U32) :=
  ⟨rfl, (claim_C4 toyLibs 0 [1, 2] 5).1 _ rfl,
   rfl, (claim_C4 toyLibs 1 [4] 5).2.1 _ rfl,
   rfl, (claim_C4 toyLibs 0 [6, 7] 5).2.2.1 _ rfl,
   rfl, (claim_C4 toyLibs 1 [1] 5).2.2.2.1 _ rfl,
   rfl, (claim_C4 toyLibs 0 [2, 33, 76, 24, 250, 250, 250, 250, 0] 2).2.2.2.2.1 _ rfl,
   rfl, (claim_C4 toyLibs 1 [8] 2).2.2.2.2.2 _ rfl⟩

/-- C5 (confirmed): `decomp` and `comp` return the `-1` sentinel for
the unknown tag and route every recognized tag to the matching
transcoder and mode; the xz and legacy-LZMA tags share one decode path
(`lzma` mode 0) but use two distinct encoders (`lzma` mode 1 =
`lzma_stream_encoder` vs mode 2 = `lzma_alone_encoder`), which produce
different outputs under a state-separating codec instance. -/
theorem claim_C5 :
    (∀ (σ : Type) (L : Libs σ) (buf : List Nat) (fuel : Nat),
      decomp L .UNKNOWN buf fuel = .ok (-1, [])
      ∧ comp L .UNKNOWN buf fuel = .ok (-1, [])
      ∧ decomp L .GZIP buf fuel = toLL (gzip L 0 buf fuel)
      ∧ decomp L .XZ buf fuel = toLL (lzma L 0 buf fuel)
      ∧ decomp L .LZMA buf fuel = toLL (lzma L 0 buf fuel)
      ∧ decomp L .BZIP2 buf fuel = toLL (bzip2 L 0 buf fuel)
      ∧ decomp L .LZ4 buf fuel = toLL (lz4 L 0 buf fuel)
      ∧ decomp L .LZ4_LEGACY buf fuel = toLL (lz4_legacy L 0 buf fuel)
      ∧ comp L .GZIP buf fuel = toLL (gzip L 1 buf fuel)
      ∧ comp L .XZ buf fuel = toLL (lzma L 1 buf fuel)
      ∧ comp L .LZMA buf fuel = toLL (lzma L 2 buf fuel)
      ∧ comp L .BZIP2 buf fuel = toLL (bzip2 L 1 buf fuel)
      ∧ comp L .LZ4 buf fuel = toLL (lz4 L 1 buf fuel)
      ∧ comp L .LZ4_LEGACY buf fuel = toLL (lz4_legacy L 1 buf fuel)
      ∧ decomp L .XZ buf fuel = decomp L .LZMA buf fuel)
  ∧ comp toyLibs2 .XZ [5] 9 = .ok (2, [1, 5])
  ∧ comp toyLibs2 .LZMA [5] 9 = .ok (2, [2, 5])
  ∧ comp toyLibs2 .XZ [5] 9 ≠ comp toyLibs2 .LZMA [5] 9 :=
  ⟨fun _ _ _ _ => ⟨rfl, rfl, rfl, rfl, rfl, rfl, rfl, rfl, rfl, rfl, rfl, rfl, rfl,
    rfl, rfl⟩, rfl, rfl, by decide⟩

/-- C7 (code bug): the bzip2 transcoder inspects no return code in its
loop, so it can only fail at context initialization (or by model fuel
exhaustion) — never with a stream error; concretely, decoding a strict
2-byte prefix of the encoder's 3-byte output returns normally with
short data instead of failing. -/
theorem claim_C7 :
    (∀ (σ : Type) (L : Libs σ) (mode : Nat) (buf : List Nat) (fuel : Nat) (e : Err),
        bzip2 L mode buf fuel = .error e → e = .initFail ∨ e = .fuelOut)
  ∧ bzip2 toyLibs 1 [1, 2, 3] 5 = .ok ⟨3, [1, 2, 3], 3, [(3, true)]⟩
  ∧ ([1, 2] : List Nat) = List.take 2 [1, 2, 3]
  ∧ bzip2 toyLibs 0 [1, 2] 5 = .ok ⟨2, [1, 2], 2, [(2, true)]⟩
  ∧ ([1, 2] : List Nat) ≠ [1, 2, 3] :=
  ⟨fun _ L mode buf fuel e h => bzip2_error L mode buf fuel e h,
   rfl, rfl, rfl, by decide⟩

/-- C7 witness: the error-classification theorem applied to a concrete
erroring bzip2 run. -/
theorem claim_C7_witness :
    bzip2 toyLibs 0 ([] : List Nat) 0 = .error .fuelOut
  ∧ (Err.fuelOut = .initFail ∨ Err.fuelOut = .fuelOut) :=
  ⟨rfl, claim_C7.1 Unit toyLibs 0 [] 0 .fuelOut rfl⟩

/-- C8 (confirmed): `decomp_file` accepts a path exactly when its
last-dot suffix matches the expected extension of the detected type
(`.gz`, `.xz`, `.lzma`, `.bz2`, and `.lz4` for both LZ4 variants,
which share the suffix and are told apart only by the tag), and the
`comp_file` method matcher maps `"lz4_legacy"` to the LZ4-legacy tag
and `"lz4"` to the distinct LZ4-frame tag, both with suffix `lz4`. -/
theorem claim_C8 :
    (∀ p, decomp_file_check .GZIP p = .ok () ↔ lastDotSuffix p = some ".gz".toList)
  ∧ (∀ p, decomp_file_check .XZ p = .ok () ↔ lastDotSuffix p = some ".xz".toList)
  ∧ (∀ p, decomp_file_check .LZMA p = .ok () ↔ lastDotSuffix p = some ".lzma".toList)
  ∧ (∀ p, decomp_file_check .BZIP2 p = .ok () ↔ lastDotSuffix p = some ".bz2".toList)
  ∧ (∀ p, decomp_file_check .LZ4 p = .ok () ↔ lastDotSuffix p = some ".lz4".toList)
  ∧ (∀ p, decomp_file_check .LZ4_LEGACY p = .ok () ↔ lastDotSuffix p = some ".lz4".toList)
  ∧ (∀ p, decomp_file_check .UNKNOWN p ≠ .ok ())
  ∧ comp_file_method "lz4_legacy" = some (.LZ4_LEGACY, "lz4")
  ∧ comp_file_method "lz4" = some (.LZ4, "lz4")
  ∧ file_t.LZ4_LEGACY ≠ file_t.LZ4 := by
  refine ⟨?_, ?_, ?_, ?_, ?_, ?_, ?_, by decide, by decide, by decide⟩
  all_goals
    intro p
    cases hext : lastDotSuffix p with
    | none => simp [decomp_file_check, hext]
    | some ext =>
      simp only [decomp_file_check, hext]
      first
      | (split <;> simp_all)
      | simp

/-- C8 witness: the extension-check equivalence applied at the path
`boot.img.gz` for matching and mismatching detected types. -/
theorem claim_C8_witness :
    decomp_file_check .GZIP "boot.img.gz".toList = .ok ()
  ∧ decomp_file_check .XZ "boot.img.gz".toList ≠ .ok () :=
  ⟨(claim_C8.1 _).mpr (by decide),
   fun hh => by
     have := (claim_C8.2.1 _).mp hh
     exact absurd this (by decide)⟩


/-- C6 (amended): for the gzip, lzma and bzip2 transcoders every
successful run ends with the input cursor exactly at the input length
and every intermediate cursor position bounded by it; the LZ4-frame
decoder's cursor stays within bounds under the library's
consumption contract and its encoder ends at the input length under
the autoFlush contract; LZ4-legacy encode ends at the input length.
LZ4-legacy decode is excluded (see the counterexample). -/
theorem claim_C6 (L : Libs σ) (mode : Nat) (buf : List Nat) (fuel : Nat) :
    (∀ r, gzip L mode buf fuel = .ok r →
        r.finalPos = buf.length ∧ ∀ p ∈ cursors 0 r.windows, p ≤ buf.length)
  ∧ (∀ r, lzma L mode buf fuel = .ok r →
        r.finalPos = buf.length ∧ ∀ p ∈ cursors 0 r.windows, p ≤ buf.length)
  ∧ (∀ r, bzip2 L mode buf fuel = .ok r →
        r.finalPos = buf.length ∧ ∀ p ∈ cursors 0 r.windows, p ≤ buf.length)
  ∧ ((∀ st cap src, (L.lz4fDecompress st cap src).2.2.1 ≤ src.length) →
     (∀ p id, L.lz4fGetFrameInfo buf = some (p, id) → p ≤ buf.length) →
     ∀ r, lz4 L 0 buf fuel = .ok r → r.finalPos ≤ buf.length)
  ∧ ((∀ st inp, inp ≠ [] → (L.lz4fCompressUpdate st inp).2.1 ≠ []) →
     ∀ r, lz4 L 1 buf fuel = .ok r → r.finalPos = buf.length)
  ∧ (∀ r, lz4_legacy L 1 buf fuel = .ok r → r.finalPos = buf.length) := by
  refine ⟨?_, ?_, ?_,
    fun hrd hfi r h => lz4_dec_pos L buf fuel hrd hfi r h,
    fun hupd r h => (lz4_enc_run L buf fuel hupd r h).1,
    lz4_legacy_enc_pos L buf fuel⟩
  · intro r h
    obtain ⟨_, h2, h3⟩ := gzip_ok L mode buf fuel r h
    refine ⟨h2, fun p hp => ?_⟩
    rw [h3] at hp
    have := windowList_cursors_le CHUNK buf.length 0 p hp
    omega
  · intro r h
    obtain ⟨_, h2, h3⟩ := lzma_ok L mode buf fuel r h
    refine ⟨h2, fun p hp => ?_⟩
    rw [h3] at hp
    have := windowList_cursors_le BUFSIZ buf.length 0 p hp
    omega
  · intro r h
    obtain ⟨_, h2, h3⟩ := bzip2_ok L mode buf fuel r h
    refine ⟨h2, fun p hp => ?_⟩
    rw [h3] at hp
    have := windowList_cursors_le CHUNK buf.length 0 p hp
    omega

/-- C6 witness: the amended cursor theorem instantiated at concrete
runs of the transcoders over the `toyLibs` codecs, discharging the
library contracts. -/
theorem claim_C6_witness :
    gzip toyLibs 1 [3, 4] 5 = .ok ⟨2, [3, 4], 2, [(2, true)]⟩
  ∧ ((2 : Nat) = ([3, 4] : List Nat).length
      ∧ ∀ p ∈ cursors 0 [(2, true)], p ≤ ([3, 4] : List Nat).length)
  ∧ lzma toyLibs 0 [5, 6] 5 = .ok ⟨2, [5, 6], 2, [(2, true)]⟩
  ∧ ((2 : Nat) = ([5, 6] : List Nat).length
      ∧ ∀ p ∈ cursors 0 [(2, true)], p ≤ ([5, 6] : List Nat).length)
  ∧ bzip2 toyLibs 1 [7, 8] 5 = .ok ⟨2, [7, 8], 2, [(2, true)]⟩
  ∧ ((2 : Nat) = ([7, 8] : List Nat).length
      ∧ ∀ p ∈ cursors 0 [(2, true)], p ≤ ([7, 8] : List Nat).length)
  ∧ lz4 toyLibs 0 [9, 1] 5 = .ok ⟨1, [1], 2, [(1, false)]⟩
  ∧ (2 : Nat) ≤ ([9, 1] : List Nat).length
  ∧ lz4 toyLibs 1 [2] 5 = .ok ⟨4, [9, 7, 2, 8], 1, [(1, false)]⟩
  ∧ (1 : Nat) = ([2] : List Nat).length
  ∧ lz4_legacy toyLibs 1 [9] 2 =
      .ok ⟨10, [2, 33, 76, 24, 2, 0, 0, 0, 1, 9, 1, 0, 0, 0], 1, [(1, false)]⟩
  ∧ (1 : Nat) = ([9] : List Nat).length :=
  ⟨rfl, (claim_C6 toyLibs 1 [3, 4] 5).1 _ rfl,
   rfl, (claim_C6 toyLibs 0 [5, 6] 5).2.1 _ rfl,
   rfl, (claim_C6 toyLibs 1 [7, 8] 5).2.2.1 _ rfl,
   rfl, (claim_C6 toyLibs 0 [9, 1] 5).2.2.2.1
     (fun _st _cap src => Nat.le_refl _)
     (fun p id h => by
       have h2 : (some (1, 7) : Option (Nat × Nat)) = some (p, id) := h
       injection h2 with h3
       injection h3 with hp hid
       subst hp
       decide)
     _ rfl,
   rfl, (claim_C6 toyLibs 1 [2] 5).2.2.2.2.1
     (fun _st inp _ => List.cons_ne_nil 7 inp) _ rfl,
   rfl, (claim_C6 toyLibs 1 [9] 2).2.2.2.2.2 _ rfl⟩

/-- C9 (amended): the gzip and bzip2 transcoders advance the cursor in
256 KiB (`CHUNK = 0x40000`) windows, the lzma transcoder in `BUFSIZ`
windows — the platform stdio constant (1024 on bionic), not 64 KiB —
and the LZ4-frame encoder in 4 MiB windows; for gzip, lzma and bzip2
exactly the final window carries the finish flag, while LZ4F has no
per-window finish action. -/
theorem claim_C9 (L : Libs σ) (mode : Nat) (buf : List Nat) (fuel : Nat) :
    CHUNK = 262144 ∧ BUFSIZ = 1024 ∧ lz4BlockSize = 4194304
  ∧ (∀ r, gzip L mode buf fuel = .ok r → r.windows = windowList CHUNK buf.length)
  ∧ (∀ r, bzip2 L mode buf fuel = .ok r → r.windows = windowList CHUNK buf.length)
  ∧ (∀ r, lzma L mode buf fuel = .ok r → r.windows = windowList BUFSIZ buf.length)
  ∧ ((∀ st inp, inp ≠ [] → (L.lz4fCompressUpdate st inp).2.1 ≠ []) →
     ∀ r, lz4 L 1 buf fuel = .ok r →
       r.windows = (windowList lz4BlockSize buf.length).map (fun w => (w.1, false)))
  ∧ (∀ chunk size, (windowList chunk size).map Prod.snd =
       List.replicate ((windowList chunk size).length - 1) false ++ [true]) :=
  ⟨rfl, rfl, rfl,
   fun r h => (gzip_ok L mode buf fuel r h).2.2,
   fun r h => (bzip2_ok L mode buf fuel r h).2.2,
   fun r h => (lzma_ok L mode buf fuel r h).2.2,
   fun hupd r h => (lz4_enc_run L buf fuel hupd r h).2,
   windowList_snd⟩

set_option maxRecDepth 100000 in
/-- C9 counterexample: on a 1500-byte input the lzma transcoder's
first window is 1024 bytes (`BUFSIZ`), not the 65536 bytes the claim
states. -/
theorem claim_C9_counterexample :
    windowsOf (lzma toyLibs 1 (List.replicate 1500 7) 9) = [(1024, false), (476, true)]
  ∧ (1024 : Nat) ≠ 65536 :=
  ⟨rfl, by decide⟩

/-- C9 witness: the window-schedule theorem instantiated at concrete
runs of the four windowed transcoders over the `toyLibs` codecs. -/
theorem claim_C9_witness :
    gzip toyLibs 0 [1] 5 = .ok ⟨1, [1], 1, [(1, true)]⟩
  ∧ ([(1, true)] : List (Nat × Bool)) = windowList CHUNK ([1] : List Nat).length
  ∧ bzip2 toyLibs 1 [2] 5 = .ok ⟨1, [2], 1, [(1, true)]⟩
  ∧ ([(1, true)] : List (Nat × Bool)) = windowList CHUNK ([2] : List Nat).length
  ∧ lzma toyLibs 2 [3] 5 = .ok ⟨1, [3], 1, [(1, true)]⟩
  ∧ ([(1, true)] : List (Nat × Bool)) = windowList BUFSIZ ([3] : List Nat).length
  ∧ lz4 toyLibs 1 [4] 5 = .ok ⟨4, [9, 7, 4, 8], 1, [(1, false)]⟩
  ∧ ([(1, false)] : List (Nat × Bool)) =
      (windowList lz4BlockSize ([4] : List Nat).length).map (fun w => (w.1, false)) :=
  ⟨rfl, (claim_C9 toyLibs 0 [1] 5).2.2.2.1 _ rfl,
   rfl, (claim_C9 toyLibs 1 [2] 5).2.2.2.2.1 _ rfl,
   rfl, (claim_C9 toyLibs 2 [3] 5).2.2.2.2.2.1 _ rfl,
   rfl, (claim_C9 toyLibs 1 [4] 5).2.2.2.2.2.2.1
     (fun _st inp _ => List.cons_ne_nil 7 inp) _ rfl⟩

end Magiskboot
